import Mathlib

/-!
Shallow embedding of the collAFL instrumentation pass
(src/llvm_mode/afl-llvm-pass.so.cc).

The pass works on the control-flow graph of a module: every basic block
gets an integer key (`AssignUniqueRandomKeysToBBs`, the random draw is
modelled as an input `keys` function), blocks are classified by
predecessor count (`runOnModule`, step 1), the parameter search
(`CalcFmul`) looks for per-block parameters `(x, z)` and a global shift
`y`, the fallback allocator (`CalcFhash`, `CalcFsingle`,
`RandomPopFreeHashes`) hands out unused map slots, and emission (step 6)
chooses a strategy per block.

Blocks are identified by their index (the source uses `BasicBlock*`
pointer identity).  `MAP_SIZE` is `2 ^ p` where `p` models
`MAP_SIZE_POW2`; all `uint32_t` arithmetic is modelled on `Nat` with an
explicit `% 2 ^ 32` where overflow is possible.
-/

/-- The control-flow graph input: block indices `0 .. numBlocks - 1`,
per-block ordered predecessor lists (`Preds`), and the per-block keys
(`Keys`, filled by `AssignUniqueRandomKeysToBBs` from `AFL_R(MAP_SIZE)`;
the random draws are an input here). -/
structure CFG where
  numBlocks : Nat
  preds : Nat → List Nat
  keys : Nat → Nat

/-- The mutable state of the pass: `Hashes`, `Params`, `Solv`, `UnSolv`,
`HashMap`, `SingleHash`, `FreeHashes`, `globalY` from the source.  Sets
are lists used up to membership; `FreeHashes` is kept sorted ascending,
matching `std::set<uint32_t>` iteration order. -/
structure St where
  hashes : List Nat
  params : List (Nat × (Nat × Nat))
  solv : List Nat
  unSolv : List Nat
  hashMap : List ((Nat × Nat) × Nat)
  singleHash : List (Nat × Nat)
  freeHashes : List Nat
  globalY : Nat
deriving DecidableEq, Repr

/-- The empty state: all the global containers of the source start empty
and `globalY` is zero-initialised. -/
def initSt : St :=
  { hashes := [], params := [], solv := [], unSolv := [], hashMap := [],
    singleHash := [], freeHashes := [], globalY := 0 }

/-- `std::set::insert`: add an element unless it is already present. -/
def insertSet (l : List Nat) (h : Nat) : List Nat :=
  if l.contains h then l else l ++ [h]

/-- `std::map` lookup (`count` / `operator[]` read). -/
def lookupKey {κ α : Type} [DecidableEq κ] (l : List (κ × α)) (k : κ) : Option α :=
  match l with
  | [] => none
  | (k', v) :: rest => if k' = k then some v else lookupKey rest k

/-- `std::map::operator[] = v`: overwrite the entry if the key is
present, otherwise add it. -/
def mapInsert {κ α : Type} [DecidableEq κ] (l : List (κ × α)) (k : κ) (v : α) :
    List (κ × α) :=
  match l with
  | [] => [(k, v)]
  | (k', v') :: rest =>
      if k' = k then (k, v) :: rest else (k', v') :: mapInsert rest k v

/-- `AFLCoverage::isIntersection`: returns `true` iff the two sets are
disjoint (the source name is a misnomer; it returns `false` as soon as a
common element is found). -/
def isIntersection (a b : List Nat) : Bool :=
  a.all (fun x => !(b.contains x))

/-- `2 ^ 32`, the modulus of `uint32_t` arithmetic. -/
def U32 : Nat := 4294967296

/-- The edge hash computed in `CalcFmul`
(`(cur >> x) xor (Keys[predBB] >> y) + z` on `uint32_t`): C++ operator
precedence binds `+ z` to the shifted predecessor key, so the value is
`(cur >>> x) ^^^ ((pred >>> y) + z)`, with the addition performed mod
`2 ^ 32`.  No reduction mod `MAP_SIZE` is performed. -/
def edgeHash (cur pred x y z : Nat) : Nat :=
  (cur >>> x) ^^^ (((pred >>> y) + z) % U32)

/-- The list of edge hashes of one block for parameters `(x, z)` and
global shift `y` (the values inserted into `tmpHashSet`, in predecessor
order). -/
def hashList (cfg : CFG) (bb x y z : Nat) : List Nat :=
  (cfg.preds bb).map (fun pr => edgeHash (cfg.keys bb) (cfg.keys pr) x y z)

/-- The acceptance test of `CalcFmul` for one block and one `(x, z)`
pair: `tmpHashSet.size() == Preds[BB].size()` (no internal collision)
and `isIntersection(tmpHashSet, Hashes)` (disjoint from the hashes
already committed in this trial). -/
def okParams (cfg : CFG) (bb y : Nat) (hashes : List Nat) (x z : Nat) : Bool :=
  ((hashList cfg bb x y z).dedup.length == (cfg.preds bb).length) &&
    isIntersection (hashList cfg bb x y z).dedup hashes

/-- The inner `z` loop of `CalcFmul`, structured on the number of
remaining iterations: try `z, z+1, ...` while iterations remain and
stop at the first success (the `break` on success). -/
def findZAux (cond : Nat → Bool) : Nat → Nat → Option Nat
  | 0, _ => none
  | fuel + 1, z => if cond z then some z else findZAux cond fuel (z + 1)

/-- The inner `z` loop of `CalcFmul` from `z` up to `p`
(`for (z = 1; z <= MAP_SIZE_POW2; z++)` with its `break`). -/
def findZ (p : Nat) (cond : Nat → Bool) (z : Nat) : Option Nat :=
  findZAux cond (p + 1 - z) z

/-- The outer `x` loop of `CalcFmul` with the `find_one` early exit,
structured on the number of remaining iterations: for each `x` run the
`z` loop; the first success wins. -/
def findXZAux (p : Nat) (cond : Nat → Nat → Bool) : Nat → Nat → Option (Nat × Nat)
  | 0, _ => none
  | fuel + 1, x =>
      match findZ p (cond x) 1 with
      | some z => some (x, z)
      | none => findXZAux p cond fuel (x + 1)

/-- The outer `x` loop of `CalcFmul` from `x` up to `p`. -/
def findXZ (p : Nat) (cond : Nat → Nat → Bool) (x : Nat) : Option (Nat × Nat) :=
  findXZAux p cond (p + 1 - x) x

/-- The body of `CalcFmul`'s block loop: search `(x, z)`; on success
push the block on `Solv`, record `Params[BB] = {x, z}` and commit the
hashes of `tmpHashSet` into `Hashes`; otherwise push it on `UnSolv`. -/
def solveBlock (p y : Nat) (cfg : CFG) (st : St) (bb : Nat) : St :=
  match findXZ p (fun x z => okParams cfg bb y st.hashes x z) 1 with
  | some (x, z) =>
      { st with solv := st.solv ++ [bb],
                params := mapInsert st.params bb (x, z),
                hashes := ((hashList cfg bb x y z).dedup).foldl insertSet st.hashes }
  | none => { st with unSolv := st.unSolv ++ [bb] }

/-- One trial of `CalcFmul` for a fixed `y`: clear `Hashes`, `Params`,
`Solv`, `UnSolv` and process the multi blocks in discovery order. -/
def trial (p y : Nat) (cfg : CFG) (multi : List Nat) (st : St) : St :=
  multi.foldl (solveBlock p y cfg)
    { st with hashes := [], params := [], solv := [], unSolv := [] }

/-- The `y` loop of `CalcFmul` from a given `y` (remaining iterations
as the structural argument): run the trial; if `UnSolv` is empty set
`globalY := y` and stop, otherwise continue with `y + 1`.  When the
loop ends without success the state of the last trial is kept and
`globalY` is left untouched. -/
def calcFmulAux (p : Nat) (cfg : CFG) (multi : List Nat) : Nat → Nat → St → St
  | 0, _, st => st
  | fuel + 1, y, st =>
      let st1 := trial p y cfg multi st
      if st1.unSolv.isEmpty then { st1 with globalY := y }
      else calcFmulAux p cfg multi fuel (y + 1) st1

/-- `AFLCoverage::CalcFmul`: the `y` loop
(`for (y = 1; y <= MAP_SIZE_POW2; y++)`), i.e. `p` iterations starting
at `y = 1`. -/
def CalcFmul (p : Nat) (cfg : CFG) (multi : List Nat) (st : St) : St :=
  calcFmulAux p cfg multi p 1 st

/-- The `y` value whose trial produced the state `calcFmulAux` returns
(the first fully successful `y`, or the last `y` tried when every trial
leaves unsolved blocks).  Used to attribute committed hashes to edges. -/
def calcFmulYAux (p : Nat) (cfg : CFG) (multi : List Nat) : Nat → Nat → St → Nat
  | 0, y, _ => y
  | fuel + 1, y, st =>
      let st1 := trial p y cfg multi st
      if st1.unSolv.isEmpty then y else calcFmulYAux p cfg multi fuel (y + 1) st1

/-- `AFLCoverage::RandomPopFreeHashes`: take `*FreeHashes.begin()` (the
least element of the ordered set), erase it from `FreeHashes` and insert
it into `Hashes`.  The source performs no emptiness check; dereferencing
`begin()` of an empty `std::set` is undefined behaviour, totalised here
as returning `0` and leaving the state unchanged. -/
def RandomPopFreeHashes (st : St) : Nat × St :=
  match st.freeHashes with
  | [] => (0, st)
  | h :: rest =>
      (h, { st with freeHashes := rest, hashes := insertSet st.hashes h })

/-- The `FreeHashes` construction loop of `CalcFhash`, structured on
the number of remaining iterations: keep each slot not already in
`Hashes`, ascending. -/
def mkFreeHashesAux (hashes : List Nat) : Nat → Nat → List Nat
  | 0, _ => []
  | fuel + 1, h =>
      (if hashes.contains h then [] else [h]) ++ mkFreeHashesAux hashes fuel (h + 1)

/-- The free pool at the start of the fallback phase:
`for (hash = 1; hash < MAP_SIZE; hash++) if (!Hashes.count(hash))
FreeHashes.insert(hash)` — ascending insertion starting at `1`, slot
`0` never considered. -/
def mkFreeHashes (mapSize : Nat) (hashes : List Nat) : List Nat :=
  mkFreeHashesAux hashes (mapSize - 1) 1

/-- One `HashMap` write of `CalcFhash`:
`HashMap[make_pair(cur, Keys[P])] = RandomPopFreeHashes()`. -/
def writeK (st : St) (k : Nat × Nat) : St :=
  let res := RandomPopFreeHashes st
  { res.2 with hashMap := mapInsert res.2.hashMap k res.1 }

/-- The predecessor loop of `CalcFhash` for one unsolved block. -/
def fhashEdge (cfg : CFG) (cur : Nat) (st : St) (pr : Nat) : St :=
  writeK st (cur, cfg.keys pr)

/-- The block loop body of `CalcFhash`. -/
def fhashBlock (cfg : CFG) (st : St) (bb : Nat) : St :=
  (cfg.preds bb).foldl (fhashEdge cfg (cfg.keys bb)) st

/-- `AFLCoverage::CalcFhash`: build `FreeHashes` (slots `1` to
`MAP_SIZE - 1` not already in `Hashes`), then reserve one slot per
predecessor edge of every unsolved block, keyed by
`(cur_key, pred_key)`. -/
def CalcFhash (p : Nat) (cfg : CFG) (st : St) : St :=
  let st0 := { st with freeHashes := mkFreeHashes (2 ^ p) st.hashes }
  st0.unSolv.foldl (fhashBlock cfg) st0

/-- The body of `CalcFsingle`'s loop:
`SingleHash[BB] = RandomPopFreeHashes()`. -/
def fsingleBlock (st : St) (bb : Nat) : St :=
  let res := RandomPopFreeHashes st
  { res.2 with singleHash := mapInsert res.2.singleHash bb res.1 }

/-- `AFLCoverage::CalcFsingle`: reserve one slot per single-predecessor
block. -/
def CalcFsingle (singles : List Nat) (st : St) : St :=
  singles.foldl fsingleBlock st

/-- `SingleBBs`: the blocks with exactly one predecessor
(`BB->hasNPredecessors(1)`), in discovery order. -/
def singleBBs (cfg : CFG) : List Nat :=
  (List.range cfg.numBlocks).filter (fun b => (cfg.preds b).length == 1)

/-- `MultiBBs`: every other block (including zero-predecessor entry
blocks), in discovery order. -/
def multiBBs (cfg : CFG) : List Nat :=
  (List.range cfg.numBlocks).filter (fun b => !((cfg.preds b).length == 1))

/-- Steps 1–5 of `runOnModule`: classify, assign keys (an input here),
run the search, then the fallback allocator. -/
def pipeline (p : Nat) (cfg : CFG) : St :=
  CalcFsingle (singleBBs cfg) (CalcFhash p cfg (CalcFmul p cfg (multiBBs cfg) initSt))

/-- The `y` whose trial produced the state `pipeline` keeps. -/
def pipelineY (p : Nat) (cfg : CFG) : Nat :=
  calcFmulYAux p cfg (multiBBs cfg) (p - 1) 1 initSt

/-- The instrumentation strategy emission (step 6) resolves for a
block: a constant slot from `SingleHash`, the parametric recomputation
from `Params` and `globalY`, or none at all (`MapPtrIdx` stays `NULL`:
the table-lookup emission for `UnSolv` blocks is commented out in the
source). -/
inductive Strategy where
  | single : Nat → Strategy
  | param : Nat → Nat → Nat → Strategy
  | nullPtr : Strategy
deriving DecidableEq, Repr

/-- Step 6 of `runOnModule`: `if (SingleHash.count(BB)) ... else if
(Params.count(BB)) ... else` leave `MapPtrIdx` `NULL`. -/
def strategyOf (st : St) (bb : Nat) : Strategy :=
  match lookupKey st.singleHash bb with
  | some s => Strategy.single s
  | none =>
      match lookupKey st.params bb with
      | some (x, z) => Strategy.param x z st.globalY
      | none => Strategy.nullPtr

/-- The committed map slot of the directed edge entering block `bb`
from its `i`-th predecessor, resolved from the pipeline's committed
tables: `SingleHash` for single blocks, the search's committed hash
(recomputed with the final trial's `y`) for solved blocks, and the
`HashMap` entry keyed by `(cur_key, pred_key)` otherwise. -/
def committedSlot (p : Nat) (cfg : CFG) (bb i : Nat) : Option Nat :=
  let st := pipeline p cfg
  match lookupKey st.singleHash bb with
  | some s => some s
  | none =>
      match lookupKey st.params bb with
      | some (x, z) =>
          some (edgeHash (cfg.keys bb) (cfg.keys ((cfg.preds bb).getD i 0)) x
            (pipelineY p cfg) z)
      | none => lookupKey st.hashMap (cfg.keys bb, cfg.keys ((cfg.preds bb).getD i 0))

/-- The total number of instrumented edges of the graph. -/
def totalEdges (cfg : CFG) : Nat :=
  ((List.range cfg.numBlocks).map (fun b => (cfg.preds b).length)).sum

/-- Modelled from the spec: the edge-hash formula as §4.4 writes it,
`((cur_key >> x) XOR (pred_key >> y)) + z  (mod MAP_SIZE)` — the `+ z`
applied to the XOR result and the value reduced mod `MAP_SIZE`.  Used
only to compare against the source's `edgeHash`. -/
def specEdgeHash (p cur pred x y z : Nat) : Nat :=
  (((cur >>> x) ^^^ (pred >>> y)) + z) % 2 ^ p

/-- The `(x, z)` candidates in the order the nested loops of `CalcFmul`
enumerate them: `x` outer from `1` to `p`, `z` inner from `1` to `p`. -/
def pairsInOrder (p : Nat) : List (Nat × Nat) :=
  (List.range' 1 p).flatMap (fun x => (List.range' 1 p).map (fun z => (x, z)))

/-- First-fit reformulation of the per-block search: take the first
acceptable `(x, z)` in enumeration order. -/
def solveBlockSpec (p y : Nat) (cfg : CFG) (st : St) (bb : Nat) : St :=
  match (pairsInOrder p).find? (fun xz => okParams cfg bb y st.hashes xz.1 xz.2) with
  | some (x, z) =>
      { st with solv := st.solv ++ [bb],
                params := mapInsert st.params bb (x, z),
                hashes := ((hashList cfg bb x y z).dedup).foldl insertSet st.hashes }
  | none => { st with unSolv := st.unSolv ++ [bb] }

/-- One trial, first-fit form. -/
def trialSpec (p y : Nat) (cfg : CFG) (multi : List Nat) (st : St) : St :=
  multi.foldl (solveBlockSpec p y cfg)
    { st with hashes := [], params := [], solv := [], unSolv := [] }

/-- First-fit reformulation of the whole search: the first `y` in
`[1, p]` whose trial leaves no unsolved block wins and becomes
`globalY`; if none succeeds the last trial's state (at `y = p`) is kept
with `globalY` untouched. -/
def fmulSpec (p : Nat) (cfg : CFG) (multi : List Nat) (st : St) : St :=
  match (List.range' 1 p).find?
      (fun y => (trialSpec p y cfg multi st).unSolv.isEmpty) with
  | some y => { trialSpec p y cfg multi st with globalY := y }
  | none => trialSpec p p cfg multi st

/-- The `(cur_key, pred_key)` pairs of the edges `CalcFhash` serves, in
allocation order. -/
def uEdgeKeys (cfg : CFG) (blocks : List Nat) : List (Nat × Nat) :=
  blocks.flatMap (fun bb => (cfg.preds bb).map (fun pr => (cfg.keys bb, cfg.keys pr)))

/-- The sequence of values `k` successive calls of
`RandomPopFreeHashes` return from a given state. -/
def popSeq (st : St) : Nat → List Nat
  | 0 => []
  | k + 1 =>
      let res := RandomPopFreeHashes st
      res.1 :: popSeq res.2 k

/-! ### Concrete control-flow graphs -/

/-- A single entry block with no predecessors. -/
def cfgEntry : CFG :=
  { numBlocks := 1, preds := fun _ => [], keys := fun _ => 0 }

/-- Two entry blocks with equal keys feeding one join block: the join
block's two predecessors share the key `1`, so every parameter choice
collapses its two edge hashes and the block stays unsolved. -/
def cfgKeyCollision : CFG :=
  { numBlocks := 3,
    preds := fun b => if b = 2 then [0, 1] else [],
    keys := fun b => if b = 2 then 2 else 1 }

/-- One entry block feeding five single-predecessor blocks: with
`MAP_SIZE = 4` the three-slot pool `{1, 2, 3}` is exhausted before the
last two consumers are served. -/
def cfgExhaust : CFG :=
  { numBlocks := 6,
    preds := fun b => if b = 0 then [] else [0],
    keys := fun _ => 0 }

/-- Two entry blocks with distinct keys feeding one join block
(`MAP_SIZE = 4`): the join block is solved at `(x, z) = (1, 1)` in the
first trial. -/
def cfgC2 : CFG :=
  { numBlocks := 3,
    preds := fun b => if b = 2 then [0, 1] else [],
    keys := fun b => if b = 0 then 0 else 2 }

/-- The spec §8 scenario `A→B→C, A→D→C` (block 0 = A, 1 = B, 2 = D,
3 = C) with keys `0..3` and `MAP_SIZE = 8`. -/
def cfgDiamond : CFG :=
  { numBlocks := 4,
    preds := fun b => if b = 3 then [1, 2] else if b = 0 then [] else [0],
    keys := fun b => b }

/-- The fields the parameter search never touches. -/
def samePassive (s t : St) : Prop :=
  s.hashMap = t.hashMap ∧ s.singleHash = t.singleHash ∧
    s.freeHashes = t.freeHashes ∧ s.globalY = t.globalY

/-- The `(x, z)` recorded in `Params` for a block (as emission reads
it). -/
def paramsOf (st : St) (bb : Nat) : Nat × Nat :=
  (lookupKey st.params bb).getD (0, 0)

/-- The edge hashes the search committed for a solved block. -/
def solvedHashes (cfg : CFG) (y : Nat) (st : St) (bb : Nat) : List Nat :=
  hashList cfg bb (paramsOf st bb).1 y (paramsOf st bb).2

/-- Invariant maintained by one trial of the search: `Solv` and
`Hashes` are duplicate-free, every solved block has recorded
parameters whose edge hashes are pairwise distinct and committed, only
solved blocks have parameters, `Hashes` counts exactly the solved
edges, and the hash lists of distinct solved blocks are disjoint. -/
def SearchInv (y : Nat) (cfg : CFG) (st : St) : Prop :=
  st.solv.Nodup ∧
  st.hashes.Nodup ∧
  (∀ bb ∈ st.solv, (lookupKey st.params bb).isSome ∧
     (solvedHashes cfg y st bb).Nodup ∧
     ∀ h ∈ solvedHashes cfg y st bb, h ∈ st.hashes) ∧
  (∀ bb, bb ∉ st.solv → lookupKey st.params bb = none) ∧
  (st.hashes.length = (st.solv.map (fun bb => (cfg.preds bb).length)).sum) ∧
  (∀ b1 ∈ st.solv, ∀ b2 ∈ st.solv, b1 ≠ b2 →
     ∀ h ∈ solvedHashes cfg y st b1, h ∉ solvedHashes cfg y st b2)

/-- The state the parameter search leaves in the pipeline. -/
def searchSt (p : Nat) (cfg : CFG) : St :=
  CalcFmul p cfg (multiBBs cfg) initSt

/-- The free pool `CalcFhash` builds in the pipeline. -/
def freePool (p : Nat) (cfg : CFG) : List Nat :=
  mkFreeHashes (2 ^ p) (searchSt p cfg).hashes

/-- The `(cur_key, pred_key)` pairs `CalcFhash` serves in the
pipeline, in allocation order. -/
def uKeys (p : Nat) (cfg : CFG) : List (Nat × Nat) :=
  uEdgeKeys cfg (searchSt p cfg).unSolv

/-! ### Basic lemmas about the container model -/

theorem contains_iff_mem {l : List Nat} {a : Nat} : l.contains a = true ↔ a ∈ l :=
  List.elem_iff

theorem insertSet_of_mem {l : List Nat} {h : Nat} (hc : h ∈ l) :
    insertSet l h = l := by
  simp only [insertSet, if_pos (contains_iff_mem.mpr hc)]

theorem insertSet_fresh {l : List Nat} {h : Nat} (hc : h ∉ l) :
    insertSet l h = l ++ [h] := by
  have : l.contains h = false := by
    cases hb : l.contains h
    · rfl
    · exact absurd (contains_iff_mem.mp hb) hc
  simp only [insertSet, this, Bool.false_eq_true, if_false]

theorem mem_insertSet {l : List Nat} {h a : Nat} :
    a ∈ insertSet l h ↔ a ∈ l ∨ a = h := by
  by_cases hc : h ∈ l
  · rw [insertSet_of_mem hc]
    constructor
    · exact fun ha => Or.inl ha
    · rintro (ha | rfl) <;> [exact ha; exact hc]
  · rw [insertSet_fresh hc]
    simp

theorem insertSet_nodup {l : List Nat} (hl : l.Nodup) (h : Nat) :
    (insertSet l h).Nodup := by
  by_cases hc : h ∈ l
  · rwa [insertSet_of_mem hc]
  · rw [insertSet_fresh hc]
    refine List.Nodup.append hl (List.nodup_singleton h) ?_
    intro a ha hb
    simp only [List.mem_singleton] at hb
    subst hb
    exact hc ha

theorem mem_foldl_insertSet (xs : List Nat) :
    ∀ (l : List Nat) (a : Nat), a ∈ xs.foldl insertSet l ↔ a ∈ l ∨ a ∈ xs := by
  induction xs with
  | nil => intro l a; simp
  | cons x xs ih =>
      intro l a
      simp only [List.foldl_cons, ih, mem_insertSet, List.mem_cons]
      tauto

theorem foldl_insertSet_nodup (xs : List Nat) :
    ∀ {l : List Nat}, l.Nodup → (xs.foldl insertSet l).Nodup := by
  induction xs with
  | nil => intro l hl; simpa using hl
  | cons x xs ih =>
      intro l hl
      exact ih (insertSet_nodup hl x)

theorem length_foldl_insertSet (xs : List Nat) :
    ∀ (l : List Nat), xs.Nodup → (∀ a ∈ xs, a ∉ l) →
      (xs.foldl insertSet l).length = l.length + xs.length := by
  induction xs with
  | nil => intro l _ _; simp
  | cons x xs ih =>
      intro l hnd hfresh
      have hx : x ∉ l := hfresh x (List.mem_cons_self x xs)
      have hxxs : x ∉ xs := (List.nodup_cons.mp hnd).1
      simp only [List.foldl_cons, insertSet_fresh hx]
      rw [ih (l ++ [x]) (List.nodup_cons.mp hnd).2]
      · simp [Nat.add_comm, Nat.add_assoc, Nat.add_left_comm]
      · intro a ha
        simp only [List.mem_append, List.mem_singleton]
        rintro (h1 | rfl)
        · exact hfresh a (List.mem_cons_of_mem x ha) h1
        · exact hxxs ha

theorem lookupKey_mapInsert_self {κ α : Type} [DecidableEq κ]
    (l : List (κ × α)) (k : κ) (v : α) :
    lookupKey (mapInsert l k v) k = some v := by
  induction l with
  | nil => simp [mapInsert, lookupKey]
  | cons kv rest ih =>
      obtain ⟨k', v'⟩ := kv
      by_cases hk : k' = k
      · subst hk
        simp [mapInsert, lookupKey]
      · simp [mapInsert, lookupKey, hk, ih]

theorem lookupKey_mapInsert_ne {κ α : Type} [DecidableEq κ]
    (l : List (κ × α)) {k k' : κ} (v : α) (h : k ≠ k') :
    lookupKey (mapInsert l k v) k' = lookupKey l k' := by
  induction l with
  | nil => simp [mapInsert, lookupKey, h]
  | cons kv rest ih =>
      obtain ⟨k'', v''⟩ := kv
      by_cases hk : k'' = k
      · subst hk
        simp [mapInsert, lookupKey, h]
      · simp [mapInsert, lookupKey, hk, ih]

theorem lookupKey_eq_none {κ α : Type} [DecidableEq κ]
    {l : List (κ × α)} {k : κ} (h : ∀ v, (k, v) ∉ l) :
    lookupKey l k = none := by
  induction l with
  | nil => rfl
  | cons kv rest ih =>
      obtain ⟨k', v'⟩ := kv
      have hk : k' ≠ k := by
        rintro rfl
        exact h v' (List.mem_cons_self _ _)
      simp only [lookupKey, if_neg hk]
      exact ih (fun v hv => h v (List.mem_cons_of_mem _ hv))

theorem lookupKey_isSome_mem {κ α : Type} [DecidableEq κ]
    {l : List (κ × α)} {k : κ} {v : α} (h : lookupKey l k = some v) :
    (k, v) ∈ l := by
  induction l with
  | nil => simp [lookupKey] at h
  | cons kv rest ih =>
      obtain ⟨k', v'⟩ := kv
      by_cases hk : k' = k
      · subst hk
        simp only [lookupKey, if_true, eq_self_iff_true, Option.some.injEq] at h
        rw [← h]
        exact List.mem_cons_self _ _
      · simp only [lookupKey, if_neg hk] at h
        exact List.mem_cons_of_mem _ (ih h)

theorem isIntersection_iff {a b : List Nat} :
    isIntersection a b = true ↔ ∀ x ∈ a, x ∉ b := by
  simp only [isIntersection, List.all_eq_true, Bool.not_eq_true']
  constructor
  · intro h x hx hxb
    have hb := h x hx
    rw [contains_iff_mem.mpr hxb] at hb
    simp at hb
  · intro h x hx
    cases hb : b.contains x
    · rfl
    · exact absurd (contains_iff_mem.mp hb) (h x hx)

theorem dedup_length_eq_nodup {l : List Nat} (h : l.dedup.length = l.length) :
    l.Nodup := by
  have hsub : l.dedup.Sublist l := List.dedup_sublist l
  have : l.dedup = l := hsub.eq_of_length h
  rw [← this]
  exact l.nodup_dedup

/-- Characterisation of `CalcFmul`'s acceptance test: the block's edge
hashes are pairwise distinct and none is already committed. -/
theorem okParams_iff {cfg : CFG} {bb y : Nat} {hashes : List Nat} {x z : Nat} :
    okParams cfg bb y hashes x z = true ↔
      (hashList cfg bb x y z).Nodup ∧ ∀ h ∈ hashList cfg bb x y z, h ∉ hashes := by
  unfold okParams
  rw [Bool.and_eq_true, Nat.beq_eq_true_eq, isIntersection_iff]
  constructor
  · rintro ⟨hlen, hdisj⟩
    have hlen' : (hashList cfg bb x y z).dedup.length = (hashList cfg bb x y z).length := by
      rw [hlen]
      simp [hashList]
    have hnd : (hashList cfg bb x y z).Nodup := dedup_length_eq_nodup hlen'
    exact ⟨hnd, fun h hh => hdisj h (List.mem_dedup.mpr hh)⟩
  · rintro ⟨hnd, hdisj⟩
    have hded : (hashList cfg bb x y z).dedup = hashList cfg bb x y z :=
      List.dedup_eq_self.mpr hnd
    constructor
    · rw [hded]
      simp [hashList]
    · intro h hh
      exact hdisj h (List.mem_dedup.mp hh)

/-! ### The nested search loops compute a first fit over the ordered
candidate enumeration -/

theorem findZAux_eq_find? (cond : Nat → Bool) :
    ∀ (fuel z : Nat), findZAux cond fuel z = (List.range' z fuel).find? cond := by
  intro fuel
  induction fuel with
  | zero => intro z; simp [findZAux]
  | succ n ih =>
      intro z
      rw [List.range'_succ, List.find?_cons]
      cases hc : cond z
      · simp only [findZAux, hc, Bool.false_eq_true, if_false]
        exact ih (z + 1)
      · simp [findZAux, hc]

theorem findZ_eq_find? (p : Nat) (cond : Nat → Bool) (z : Nat) :
    findZ p cond z = (List.range' z (p + 1 - z)).find? cond :=
  findZAux_eq_find? cond (p + 1 - z) z

theorem findXZAux_eq_find? (p : Nat) (cond : Nat → Nat → Bool) :
    ∀ (fuel x : Nat),
      findXZAux p cond fuel x =
        ((List.range' x fuel).flatMap
            (fun a => (List.range' 1 p).map (fun b => (a, b)))).find?
          (fun ab => cond ab.1 ab.2) := by
  intro fuel
  induction fuel with
  | zero => intro x; simp [findXZAux]
  | succ n ih =>
      intro x
      rw [List.range'_succ]
      simp only [List.flatMap_cons, List.find?_append]
      rw [List.find?_map]
      have hz : findZ p (cond x) 1 = (List.range' 1 p).find? (cond x) := by
        have : p + 1 - 1 = p := by omega
        rw [findZ_eq_find?, this]
      have hcomp : ((fun ab : Nat × Nat => cond ab.1 ab.2) ∘ fun b => (x, b)) = cond x :=
        rfl
      rw [hcomp]
      simp only [findXZAux, hz]
      cases hfind : (List.range' 1 p).find? (cond x) with
      | some z => simp
      | none =>
          simpa using ih (x + 1)

theorem findXZ_eq_find?_pairs (p : Nat) (cond : Nat → Nat → Bool) :
    findXZ p cond 1 = (pairsInOrder p).find? (fun ab => cond ab.1 ab.2) := by
  unfold findXZ pairsInOrder
  have h1 : p + 1 - 1 = p := by omega
  rw [h1, findXZAux_eq_find? p cond p 1]

theorem findXZ_some_ok {p : Nat} {cond : Nat → Nat → Bool} {x z : Nat}
    (h : findXZ p cond 1 = some (x, z)) : cond x z = true := by
  rw [findXZ_eq_find?_pairs] at h
  simpa using List.find?_some h

/-- The per-block loop equals the first-fit formulation. -/
theorem solveBlock_eq_spec (p y : Nat) (cfg : CFG) (st : St) (bb : Nat) :
    solveBlock p y cfg st bb = solveBlockSpec p y cfg st bb := by
  unfold solveBlock solveBlockSpec
  rw [findXZ_eq_find?_pairs]

theorem trial_eq_spec (p y : Nat) (cfg : CFG) (multi : List Nat) (st : St) :
    trial p y cfg multi st = trialSpec p y cfg multi st := by
  unfold trial trialSpec
  have h : solveBlock p y cfg = solveBlockSpec p y cfg :=
    funext fun st' => funext fun bb => solveBlock_eq_spec p y cfg st' bb
  rw [h]

theorem samePassive_refl (s : St) : samePassive s s :=
  ⟨rfl, rfl, rfl, rfl⟩

theorem samePassive_trans {s t u : St} (h1 : samePassive s t) (h2 : samePassive t u) :
    samePassive s u :=
  ⟨h1.1.trans h2.1, h1.2.1.trans h2.2.1, h1.2.2.1.trans h2.2.2.1, h1.2.2.2.trans h2.2.2.2⟩

theorem solveBlock_passive (p y : Nat) (cfg : CFG) (st : St) (bb : Nat) :
    samePassive (solveBlock p y cfg st bb) st := by
  unfold solveBlock
  cases findXZ p (fun x z => okParams cfg bb y st.hashes x z) 1 with
  | none => exact ⟨rfl, rfl, rfl, rfl⟩
  | some xz =>
      obtain ⟨x, z⟩ := xz
      exact ⟨rfl, rfl, rfl, rfl⟩

theorem foldl_solveBlock_passive (p y : Nat) (cfg : CFG) (multi : List Nat) :
    ∀ st : St, samePassive (multi.foldl (solveBlock p y cfg) st) st := by
  induction multi with
  | nil => intro st; exact samePassive_refl st
  | cons bb rest ih =>
      intro st
      exact samePassive_trans (ih (solveBlock p y cfg st bb)) (solveBlock_passive p y cfg st bb)

theorem trial_passive (p y : Nat) (cfg : CFG) (multi : List Nat) (st : St) :
    samePassive (trial p y cfg multi st) st := by
  unfold trial
  exact foldl_solveBlock_passive p y cfg multi _

/-- The result of a trial depends on the incoming state only through
the fields the trial does not clear. -/
theorem trial_congr (p y : Nat) (cfg : CFG) (multi : List Nat) {st st' : St}
    (h : samePassive st st') :
    trial p y cfg multi st = trial p y cfg multi st' := by
  unfold trial
  obtain ⟨h1, h2, h3, h4⟩ := h
  have : ({ st with hashes := [], params := [], solv := [], unSolv := [] } : St) =
      { st' with hashes := [], params := [], solv := [], unSolv := [] } := by
    cases st
    cases st'
    simp_all
  rw [this]

/-- The `y` loop computes, over the range it still has to visit, the
first trial whose `UnSolv` is empty; when none succeeds it keeps the
last trial's state. -/
theorem calcFmulAux_eq_find? (p : Nat) (cfg : CFG) (multi : List Nat) :
    ∀ (fuel y : Nat) (st : St), 1 ≤ fuel →
      calcFmulAux p cfg multi fuel y st =
        (match (List.range' y fuel).find?
            (fun y' => (trial p y' cfg multi st).unSolv.isEmpty) with
         | some y' => { trial p y' cfg multi st with globalY := y' }
         | none => trial p (y + fuel - 1) cfg multi st) := by
  intro fuel
  induction fuel with
  | zero => intro y st h; omega
  | succ n ih =>
      intro y st _
      rw [List.range'_succ, List.find?_cons]
      show (let st1 := trial p y cfg multi st
            if st1.unSolv.isEmpty then { st1 with globalY := y }
            else calcFmulAux p cfg multi n (y + 1) st1) = _
      cases hemp : (trial p y cfg multi st).unSolv.isEmpty
      · simp only [hemp, Bool.false_eq_true, if_false]
        cases hn : n with
        | zero =>
            show trial p y cfg multi st = _
            simp only [List.range'_zero, List.find?_nil]
            have : y + (0 + 1) - 1 = y := by omega
            rw [this]
        | succ m =>
            rw [← hn]
            have hn1 : 1 ≤ n := by omega
            rw [ih (y + 1) (trial p y cfg multi st) hn1]
            have hcong : ∀ y' : Nat,
                trial p y' cfg multi (trial p y cfg multi st) = trial p y' cfg multi st :=
              fun y' => trial_congr p y' cfg multi (trial_passive p y cfg multi st)
            have hpred :
                (fun y' => (trial p y' cfg multi (trial p y cfg multi st)).unSolv.isEmpty) =
                  (fun y' => (trial p y' cfg multi st).unSolv.isEmpty) := by
              funext y'
              rw [hcong y']
            rw [hpred]
            cases hfind : (List.range' (y + 1) n).find?
                (fun y' => (trial p y' cfg multi st).unSolv.isEmpty) with
            | some y' =>
                simp only [hcong]
            | none =>
                simp only [hcong]
                have : y + 1 + n - 1 = y + (n + 1) - 1 := by omega
                rw [this]
      · simp only [hemp, if_true]

/-- `CalcFmul` keeps the first fully successful trial (setting
`globalY`), else the last trial's state with `globalY` untouched. -/
theorem CalcFmul_eq_find? (p : Nat) (cfg : CFG) (multi : List Nat) (st : St)
    (hp : 1 ≤ p) :
    CalcFmul p cfg multi st =
      (match (List.range' 1 p).find?
          (fun y => (trial p y cfg multi st).unSolv.isEmpty) with
       | some y => { trial p y cfg multi st with globalY := y }
       | none => trial p p cfg multi st) := by
  unfold CalcFmul
  rw [calcFmulAux_eq_find? p cfg multi p 1 st hp]
  have : 1 + p - 1 = p := by omega
  rw [this]

/-- The tracked trial index computes the first successful `y` among
those it still visits, else the index one past the last visited. -/
theorem calcFmulYAux_eq_find? (p : Nat) (cfg : CFG) (multi : List Nat) :
    ∀ (fuel y : Nat) (st : St),
      calcFmulYAux p cfg multi fuel y st =
        (match (List.range' y fuel).find?
            (fun y' => (trial p y' cfg multi st).unSolv.isEmpty) with
         | some y' => y'
         | none => y + fuel) := by
  intro fuel
  induction fuel with
  | zero => intro y st; simp [calcFmulYAux]
  | succ n ih =>
      intro y st
      rw [List.range'_succ, List.find?_cons]
      show (let st1 := trial p y cfg multi st
            if st1.unSolv.isEmpty then y else calcFmulYAux p cfg multi n (y + 1) st1) = _
      cases hemp : (trial p y cfg multi st).unSolv.isEmpty
      · simp only [hemp, Bool.false_eq_true, if_false]
        rw [ih (y + 1) (trial p y cfg multi st)]
        have hcong : ∀ y' : Nat,
            trial p y' cfg multi (trial p y cfg multi st) = trial p y' cfg multi st :=
          fun y' => trial_congr p y' cfg multi (trial_passive p y cfg multi st)
        have hpred :
            (fun y' => (trial p y' cfg multi (trial p y cfg multi st)).unSolv.isEmpty) =
              (fun y' => (trial p y' cfg multi st).unSolv.isEmpty) := by
          funext y'
          rw [hcong y']
        rw [hpred]
        cases hfind : (List.range' (y + 1) n).find?
            (fun y' => (trial p y' cfg multi st).unSolv.isEmpty) with
        | some y' => rfl
        | none =>
            show y + 1 + n = y + (n + 1)
            omega
      · simp only [hemp, if_true]

/-- The final trial index of the whole search: the first successful
`y`, or `p` when every trial fails. -/
theorem pipelineY_eq_find? (p : Nat) (cfg : CFG) (hp : 1 ≤ p) :
    pipelineY p cfg =
      (match (List.range' 1 p).find?
          (fun y => (trial p y cfg (multiBBs cfg) initSt).unSolv.isEmpty) with
       | some y' => y'
       | none => p) := by
  unfold pipelineY
  rw [calcFmulYAux_eq_find? p cfg (multiBBs cfg) (p - 1) 1 initSt]
  have hsplit : List.range' 1 p = List.range' 1 (p - 1) ++ [p] := by
    have h2 := @List.range'_concat 1 1 (p - 1)
    have h3 : (p - 1) + 1 = p := by omega
    rw [h3] at h2
    rw [h2]
    congr 1
    simp
    omega
  rw [hsplit, List.find?_append]
  cases hfind : (List.range' 1 (p - 1)).find?
      (fun y' => (trial p y' cfg (multiBBs cfg) initSt).unSolv.isEmpty) with
  | some y' => rfl
  | none =>
      simp only [Option.none_or, List.find?_cons]
      cases hemp : (trial p p cfg (multiBBs cfg) initSt).unSolv.isEmpty
      · simp only [hemp, List.find?_nil]
        show 1 + (p - 1) = p
        omega
      · simp only [hemp]
        exact Nat.add_sub_cancel' hp

/-! ### Invariants of the parameter search -/

theorem solveBlock_unsolved_eq {p y : Nat} {cfg : CFG} {st : St} {bb : Nat}
    (h : findXZ p (fun x z => okParams cfg bb y st.hashes x z) 1 = none) :
    solveBlock p y cfg st bb = { st with unSolv := st.unSolv ++ [bb] } := by
  unfold solveBlock
  rw [h]

theorem solveBlock_solved_eq {p y : Nat} {cfg : CFG} {st : St} {bb x z : Nat}
    (h : findXZ p (fun x z => okParams cfg bb y st.hashes x z) 1 = some (x, z)) :
    solveBlock p y cfg st bb =
      { st with solv := st.solv ++ [bb],
                params := mapInsert st.params bb (x, z),
                hashes := ((hashList cfg bb x y z).dedup).foldl insertSet st.hashes } := by
  unfold solveBlock
  rw [h]

theorem solvedHashes_congr {cfg : CFG} {y : Nat} {st st' : St} {bb : Nat}
    (h : lookupKey st'.params bb = lookupKey st.params bb) :
    solvedHashes cfg y st' bb = solvedHashes cfg y st bb := by
  unfold solvedHashes paramsOf
  rw [h]

theorem nodup_concat {l : List Nat} {a : Nat} (h1 : l.Nodup) (h2 : a ∉ l) :
    (l ++ [a]).Nodup := by
  rw [List.nodup_append]
  refine ⟨h1, List.nodup_singleton a, ?_⟩
  intro x hx hxa
  simp only [List.mem_singleton] at hxa
  subst hxa
  exact h2 hx

/-- Committing one solved block preserves the search invariant. -/
theorem SearchInv_commit {y : Nat} {cfg : CFG} {st : St} {bb x z : Nat}
    (hinv : SearchInv y cfg st) (hbb : bb ∉ st.solv)
    (hnodupL : (hashList cfg bb x y z).Nodup)
    (hfreshL : ∀ h ∈ hashList cfg bb x y z, h ∉ st.hashes) :
    SearchInv y cfg
      { st with solv := st.solv ++ [bb],
                params := mapInsert st.params bb (x, z),
                hashes := ((hashList cfg bb x y z).dedup).foldl insertSet st.hashes } := by
  obtain ⟨hIs, hHs, hSolved, hPnone, hLen, hCross⟩ := hinv
  have hded : (hashList cfg bb x y z).dedup = hashList cfg bb x y z :=
    List.dedup_eq_self.mpr hnodupL
  have hlook_bb :
      lookupKey (mapInsert st.params bb (x, z)) bb = some (x, z) :=
    lookupKey_mapInsert_self st.params bb (x, z)
  have hlook_ne : ∀ b, b ≠ bb →
      lookupKey (mapInsert st.params bb (x, z)) b = lookupKey st.params b := by
    intro b hb
    exact lookupKey_mapInsert_ne st.params (x, z) (fun hh => hb hh.symm)
  set st' : St :=
    { st with solv := st.solv ++ [bb],
              params := mapInsert st.params bb (x, z),
              hashes := ((hashList cfg bb x y z).dedup).foldl insertSet st.hashes }
    with hst'
  have hsolved_bb : solvedHashes cfg y st' bb = hashList cfg bb x y z := by
    unfold solvedHashes paramsOf
    show hashList cfg bb ((lookupKey (mapInsert st.params bb (x, z)) bb).getD (0, 0)).1 y
        ((lookupKey (mapInsert st.params bb (x, z)) bb).getD (0, 0)).2 = _
    rw [hlook_bb]
    rfl
  have hsolved_old : ∀ b, b ≠ bb →
      solvedHashes cfg y st' b = solvedHashes cfg y st b := by
    intro b hb
    exact solvedHashes_congr (hlook_ne b hb)
  have hmemH : ∀ a, a ∈ st'.hashes ↔ a ∈ st.hashes ∨ a ∈ hashList cfg bb x y z := by
    intro a
    show a ∈ ((hashList cfg bb x y z).dedup).foldl insertSet st.hashes ↔ _
    rw [hded, mem_foldl_insertSet]
  refine ⟨?_, ?_, ?_, ?_, ?_, ?_⟩
  · exact nodup_concat hIs hbb
  · exact foldl_insertSet_nodup _ hHs
  · intro b hb
    rcases List.mem_append.mp hb with hold | hnew
    · have hne : b ≠ bb := fun hh => hbb (hh ▸ hold)
      refine ⟨?_, ?_, ?_⟩
      · show (lookupKey (mapInsert st.params bb (x, z)) b).isSome
        rw [hlook_ne b hne]
        exact (hSolved b hold).1
      · rw [hsolved_old b hne]
        exact (hSolved b hold).2.1
      · intro h hh
        rw [hsolved_old b hne] at hh
        exact (hmemH h).mpr (Or.inl ((hSolved b hold).2.2 h hh))
    · simp only [List.mem_singleton] at hnew
      subst hnew
      refine ⟨?_, ?_, ?_⟩
      · show (lookupKey (mapInsert st.params b (x, z)) b).isSome
        rw [hlook_bb]
        rfl
      · rw [hsolved_bb]
        exact hnodupL
      · intro h hh
        rw [hsolved_bb] at hh
        exact (hmemH h).mpr (Or.inr hh)
  · intro b hb
    have hb1 : b ∉ st.solv := fun hh => hb (List.mem_append.mpr (Or.inl hh))
    have hb2 : b ≠ bb := fun hh =>
      hb (List.mem_append.mpr (Or.inr (by simp [hh])))
    show lookupKey (mapInsert st.params bb (x, z)) b = none
    rw [hlook_ne b hb2]
    exact hPnone b hb1
  · show (((hashList cfg bb x y z).dedup).foldl insertSet st.hashes).length = _
    rw [hded, length_foldl_insertSet _ st.hashes hnodupL hfreshL]
    have hlenL : (hashList cfg bb x y z).length = (cfg.preds bb).length := by
      unfold hashList
      exact List.length_map _ _
    simp only [List.map_append, List.sum_append, List.map_cons, List.map_nil,
      List.sum_cons, List.sum_nil]
    omega
  · intro b1 hb1 b2 hb2 hne h hh1
    rcases List.mem_append.mp hb1 with hold1 | hnew1 <;>
      rcases List.mem_append.mp hb2 with hold2 | hnew2
    · have hne1 : b1 ≠ bb := fun hh => hbb (hh ▸ hold1)
      have hne2 : b2 ≠ bb := fun hh => hbb (hh ▸ hold2)
      rw [hsolved_old b1 hne1] at hh1
      rw [hsolved_old b2 hne2]
      exact hCross b1 hold1 b2 hold2 hne h hh1
    · simp only [List.mem_singleton] at hnew2
      subst hnew2
      have hne1 : b1 ≠ b2 := hne
      rw [hsolved_old b1 hne1] at hh1
      rw [hsolved_bb]
      intro hh2
      exact hfreshL h hh2 ((hSolved b1 hold1).2.2 h hh1)
    · simp only [List.mem_singleton] at hnew1
      subst hnew1
      have hne2 : b2 ≠ b1 := fun hh => hne hh.symm
      rw [hsolved_bb] at hh1
      rw [hsolved_old b2 hne2]
      intro hh2
      exact hfreshL h hh1 ((hSolved b2 hold2).2.2 h hh2)
    · simp only [List.mem_singleton] at hnew1 hnew2
      subst hnew1
      subst hnew2
      exact absurd rfl hne

/-- One step of the block loop: the invariant is preserved, the
processed block lands on `Solv` or `UnSolv`, and no other block
moves. -/
theorem solveBlock_inv_step (p y : Nat) (cfg : CFG) (st : St) (bb : Nat)
    (hinv : SearchInv y cfg st) (h1 : bb ∉ st.solv) :
    SearchInv y cfg (solveBlock p y cfg st bb) ∧
    (((solveBlock p y cfg st bb).solv : Multiset Nat) +
        ((solveBlock p y cfg st bb).unSolv : Multiset Nat) =
      (st.solv : Multiset Nat) + (st.unSolv : Multiset Nat) + ([bb] : Multiset Nat)) ∧
    (∀ b, b ∈ (solveBlock p y cfg st bb).solv → b ∈ st.solv ∨ b = bb) ∧
    (∀ b, b ∈ (solveBlock p y cfg st bb).unSolv → b ∈ st.unSolv ∨ b = bb) := by
  cases hfind : findXZ p (fun x z => okParams cfg bb y st.hashes x z) 1 with
  | none =>
      rw [solveBlock_unsolved_eq hfind]
      refine ⟨hinv, ?_, ?_, ?_⟩
      · show (st.solv : Multiset Nat) + ((st.unSolv ++ [bb] : List Nat) : Multiset Nat) = _
        have hco : ((st.unSolv ++ [bb] : List Nat) : Multiset Nat) =
            (st.unSolv : Multiset Nat) + ([bb] : Multiset Nat) := rfl
        rw [hco]
        abel
      · intro b hb
        exact Or.inl hb
      · intro b hb
        rcases List.mem_append.mp hb with h | h
        · exact Or.inl h
        · simp only [List.mem_singleton] at h
          exact Or.inr h
  | some xz =>
      obtain ⟨x, z⟩ := xz
      have hok := findXZ_some_ok hfind
      rw [okParams_iff] at hok
      rw [solveBlock_solved_eq hfind]
      refine ⟨SearchInv_commit hinv h1 hok.1 hok.2, ?_, ?_, ?_⟩
      · show ((st.solv ++ [bb] : List Nat) : Multiset Nat) + (st.unSolv : Multiset Nat) = _
        have hco : ((st.solv ++ [bb] : List Nat) : Multiset Nat) =
            (st.solv : Multiset Nat) + ([bb] : Multiset Nat) := rfl
        rw [hco]
        abel
      · intro b hb
        rcases List.mem_append.mp hb with h | h
        · exact Or.inl h
        · simp only [List.mem_singleton] at h
          exact Or.inr h
      · intro b hb
        exact Or.inl hb

/-- The block loop of a trial preserves the search invariant, and
distributes exactly the processed blocks on `Solv` and `UnSolv`. -/
theorem foldl_solveBlock_inv (p y : Nat) (cfg : CFG) :
    ∀ (rest : List Nat) (st : St),
      rest.Nodup →
      (∀ bb ∈ rest, bb ∉ st.solv ∧ bb ∉ st.unSolv) →
      SearchInv y cfg st →
      SearchInv y cfg (rest.foldl (solveBlock p y cfg) st) ∧
      (((rest.foldl (solveBlock p y cfg) st).solv : Multiset Nat) +
          ((rest.foldl (solveBlock p y cfg) st).unSolv : Multiset Nat) =
        (st.solv : Multiset Nat) + (st.unSolv : Multiset Nat) + (rest : Multiset Nat)) := by
  intro rest
  induction rest with
  | nil =>
      intro st _ _ hinv
      exact ⟨hinv, by simp⟩
  | cons bb rest ih =>
      intro st hnd hfresh hinv
      have hbb_solv : bb ∉ st.solv := (hfresh bb (List.mem_cons_self _ _)).1
      have hbb_un : bb ∉ st.unSolv := (hfresh bb (List.mem_cons_self _ _)).2
      have hbb_rest : bb ∉ rest := (List.nodup_cons.mp hnd).1
      have hrest_nd : rest.Nodup := (List.nodup_cons.mp hnd).2
      simp only [List.foldl_cons]
      obtain ⟨hinv1, hmul1, hsolv1, hun1⟩ := solveBlock_inv_step p y cfg st bb hinv hbb_solv
      have hfresh' : ∀ b ∈ rest,
          b ∉ (solveBlock p y cfg st bb).solv ∧ b ∉ (solveBlock p y cfg st bb).unSolv := by
        intro b hb
        have hbne : b ≠ bb := fun hh => hbb_rest (hh ▸ hb)
        constructor
        · intro hmem
          rcases hsolv1 b hmem with h | h
          · exact (hfresh b (List.mem_cons_of_mem _ hb)).1 h
          · exact hbne h
        · intro hmem
          rcases hun1 b hmem with h | h
          · exact (hfresh b (List.mem_cons_of_mem _ hb)).2 h
          · exact hbne h
      obtain ⟨hI2, hM2⟩ := ih (solveBlock p y cfg st bb) hrest_nd hfresh' hinv1
      refine ⟨hI2, ?_⟩
      rw [hM2, hmul1]
      have hco2 : ((bb :: rest : List Nat) : Multiset Nat) =
          ([bb] : Multiset Nat) + (rest : Multiset Nat) := rfl
      rw [hco2]
      abel

/-- The invariant and the `Solv`/`UnSolv` partition hold of every
trial. -/
theorem trial_inv (p y : Nat) (cfg : CFG) (multi : List Nat) (st : St)
    (hnd : multi.Nodup) :
    SearchInv y cfg (trial p y cfg multi st) ∧
    (((trial p y cfg multi st).solv : Multiset Nat) +
        ((trial p y cfg multi st).unSolv : Multiset Nat) = (multi : Multiset Nat)) := by
  unfold trial
  have hbase : SearchInv y cfg
      ({ st with hashes := [], params := [], solv := [], unSolv := [] } : St) := by
    refine ⟨List.nodup_nil, List.nodup_nil, ?_, ?_, rfl, ?_⟩
    · intro bb hb
      exact absurd hb (List.not_mem_nil bb)
    · intro bb _
      rfl
    · intro b1 hb1
      exact absurd hb1 (List.not_mem_nil b1)
  have hfresh : ∀ bb ∈ multi,
      bb ∉ ({ st with hashes := [], params := [], solv := [], unSolv := [] } : St).solv ∧
      bb ∉ ({ st with hashes := [], params := [], solv := [], unSolv := [] } : St).unSolv := by
    intro bb _
    exact ⟨List.not_mem_nil bb, List.not_mem_nil bb⟩
  obtain ⟨h1, h2⟩ := foldl_solveBlock_inv p y cfg multi _ hnd hfresh hbase
  refine ⟨h1, ?_⟩
  rw [h2]
  simp

/-! ### Classifier facts -/

theorem multiBBs_nodup (cfg : CFG) : (multiBBs cfg).Nodup :=
  (List.nodup_range cfg.numBlocks).filter _

theorem singleBBs_nodup (cfg : CFG) : (singleBBs cfg).Nodup :=
  (List.nodup_range cfg.numBlocks).filter _

theorem mem_multiBBs {cfg : CFG} {bb : Nat} :
    bb ∈ multiBBs cfg ↔ bb < cfg.numBlocks ∧ (cfg.preds bb).length ≠ 1 := by
  unfold multiBBs
  rw [List.mem_filter, List.mem_range]
  simp

theorem mem_singleBBs {cfg : CFG} {bb : Nat} :
    bb ∈ singleBBs cfg ↔ bb < cfg.numBlocks ∧ (cfg.preds bb).length = 1 := by
  unfold singleBBs
  rw [List.mem_filter, List.mem_range]
  simp

/-! ### Shape of the search result -/

/-- The state `CalcFmul` returns is the trial at `pipelineY`, possibly
with `globalY` set to it. -/
theorem CalcFmul_trial_shape (p : Nat) (cfg : CFG) (hp : 1 ≤ p) :
    CalcFmul p cfg (multiBBs cfg) initSt =
        trial p (pipelineY p cfg) cfg (multiBBs cfg) initSt ∨
    CalcFmul p cfg (multiBBs cfg) initSt =
      { trial p (pipelineY p cfg) cfg (multiBBs cfg) initSt with
        globalY := pipelineY p cfg } := by
  rw [CalcFmul_eq_find? p cfg _ initSt hp, pipelineY_eq_find? p cfg hp]
  cases hfind : (List.range' 1 p).find?
      (fun y => (trial p y cfg (multiBBs cfg) initSt).unSolv.isEmpty) with
  | some y' => right; rfl
  | none => left; rfl

/-- The invariant and the partition of the multi blocks hold of the
search's final state. -/
theorem fmul_state_inv (p : Nat) (cfg : CFG) (hp : 1 ≤ p) :
    SearchInv (pipelineY p cfg) cfg (CalcFmul p cfg (multiBBs cfg) initSt) ∧
    (((CalcFmul p cfg (multiBBs cfg) initSt).solv : Multiset Nat) +
        ((CalcFmul p cfg (multiBBs cfg) initSt).unSolv : Multiset Nat) =
      (multiBBs cfg : Multiset Nat)) := by
  have hnd : (multiBBs cfg).Nodup := multiBBs_nodup cfg
  rcases CalcFmul_trial_shape p cfg hp with h | h <;> rw [h] <;>
    exact trial_inv p (pipelineY p cfg) cfg (multiBBs cfg) initSt hnd

/-- The search never touches the fallback tables. -/
theorem CalcFmul_tables (p : Nat) (cfg : CFG) (hp : 1 ≤ p) :
    (CalcFmul p cfg (multiBBs cfg) initSt).hashMap = [] ∧
    (CalcFmul p cfg (multiBBs cfg) initSt).singleHash = [] ∧
    (CalcFmul p cfg (multiBBs cfg) initSt).freeHashes = [] := by
  rcases CalcFmul_trial_shape p cfg hp with h | h <;> rw [h] <;>
    [skip;
     show (trial p (pipelineY p cfg) cfg (multiBBs cfg) initSt).hashMap = [] ∧
       (trial p (pipelineY p cfg) cfg (multiBBs cfg) initSt).singleHash = [] ∧
       (trial p (pipelineY p cfg) cfg (multiBBs cfg) initSt).freeHashes = []] <;>
    (obtain ⟨h1, h2, h3, _⟩ := trial_passive p (pipelineY p cfg) cfg (multiBBs cfg) initSt;
     exact ⟨h1, h2, h3⟩)

/-! ### The fallback allocator -/

theorem fhashBlock_eq_writeK (cfg : CFG) (st : St) (bb : Nat) :
    fhashBlock cfg st bb =
      ((cfg.preds bb).map (fun pr => (cfg.keys bb, cfg.keys pr))).foldl writeK st := by
  unfold fhashBlock fhashEdge
  rw [List.foldl_map]

theorem foldl_fhashBlock_eq (cfg : CFG) :
    ∀ (blocks : List Nat) (st : St),
      blocks.foldl (fhashBlock cfg) st = (uEdgeKeys cfg blocks).foldl writeK st := by
  intro blocks
  induction blocks with
  | nil => intro st; rfl
  | cons bb rest ih =>
      intro st
      show rest.foldl (fhashBlock cfg) (fhashBlock cfg st bb) = _
      rw [ih (fhashBlock cfg st bb), fhashBlock_eq_writeK]
      unfold uEdgeKeys
      rw [List.flatMap_cons, List.foldl_append]

theorem writeK_untouched (st : St) (k : Nat × Nat) :
    (writeK st k).params = st.params ∧ (writeK st k).solv = st.solv ∧
    (writeK st k).unSolv = st.unSolv ∧ (writeK st k).singleHash = st.singleHash ∧
    (writeK st k).globalY = st.globalY := by
  unfold writeK RandomPopFreeHashes
  cases st.freeHashes with
  | nil => exact ⟨rfl, rfl, rfl, rfl, rfl⟩
  | cons h rest => exact ⟨rfl, rfl, rfl, rfl, rfl⟩

theorem foldl_writeK_untouched (ks : List (Nat × Nat)) :
    ∀ st : St,
      (ks.foldl writeK st).params = st.params ∧ (ks.foldl writeK st).solv = st.solv ∧
      (ks.foldl writeK st).unSolv = st.unSolv ∧
      (ks.foldl writeK st).singleHash = st.singleHash ∧
      (ks.foldl writeK st).globalY = st.globalY := by
  induction ks with
  | nil => intro st; exact ⟨rfl, rfl, rfl, rfl, rfl⟩
  | cons k rest ih =>
      intro st
      obtain ⟨a1, a2, a3, a4, a5⟩ := writeK_untouched st k
      obtain ⟨b1, b2, b3, b4, b5⟩ := ih (writeK st k)
      exact ⟨b1.trans a1, b2.trans a2, b3.trans a3, b4.trans a4, b5.trans a5⟩

theorem fsingleBlock_untouched (st : St) (bb : Nat) :
    (fsingleBlock st bb).params = st.params ∧ (fsingleBlock st bb).solv = st.solv ∧
    (fsingleBlock st bb).unSolv = st.unSolv ∧ (fsingleBlock st bb).hashMap = st.hashMap ∧
    (fsingleBlock st bb).globalY = st.globalY := by
  unfold fsingleBlock RandomPopFreeHashes
  cases st.freeHashes with
  | nil => exact ⟨rfl, rfl, rfl, rfl, rfl⟩
  | cons h rest => exact ⟨rfl, rfl, rfl, rfl, rfl⟩

theorem foldl_fsingle_untouched (bs : List Nat) :
    ∀ st : St,
      (bs.foldl fsingleBlock st).params = st.params ∧
      (bs.foldl fsingleBlock st).solv = st.solv ∧
      (bs.foldl fsingleBlock st).unSolv = st.unSolv ∧
      (bs.foldl fsingleBlock st).hashMap = st.hashMap ∧
      (bs.foldl fsingleBlock st).globalY = st.globalY := by
  induction bs with
  | nil => intro st; exact ⟨rfl, rfl, rfl, rfl, rfl⟩
  | cons b rest ih =>
      intro st
      obtain ⟨a1, a2, a3, a4, a5⟩ := fsingleBlock_untouched st b
      obtain ⟨b1, b2, b3, b4, b5⟩ := ih (fsingleBlock st b)
      exact ⟨b1.trans a1, b2.trans a2, b3.trans a3, b4.trans a4, b5.trans a5⟩

/-- Running the `CalcFhash` writes over a list of edge keys: each write
pops the head of the free pool; the pool loses its first `ks.length`
elements, exactly those values join `Hashes`, foreign keys keep their
lookups, and (for duplicate-free key lists) the `j`-th key maps to the
`j`-th pool element. -/
theorem writeK_run (ks : List (Nat × Nat)) :
    ∀ st : St, ks.length ≤ st.freeHashes.length →
      (ks.foldl writeK st).freeHashes = st.freeHashes.drop ks.length ∧
      (∀ a, a ∈ (ks.foldl writeK st).hashes ↔
        a ∈ st.hashes ∨ a ∈ st.freeHashes.take ks.length) ∧
      (∀ k, k ∉ ks →
        lookupKey (ks.foldl writeK st).hashMap k = lookupKey st.hashMap k) ∧
      (ks.Nodup → ∀ j, j < ks.length →
        lookupKey (ks.foldl writeK st).hashMap (ks.getD j (0, 0)) =
          some (st.freeHashes.getD j 0)) := by
  induction ks with
  | nil =>
      intro st _
      refine ⟨rfl, fun a => by simp, fun k _ => rfl, fun _ j hj => absurd hj (by simp)⟩
  | cons k ks ih =>
      intro st hlen
      cases hfh : st.freeHashes with
      | nil =>
          rw [hfh] at hlen
          simp at hlen
      | cons h rest =>
          have hwk : writeK st k =
              { st with freeHashes := rest,
                        hashes := insertSet st.hashes h,
                        hashMap := mapInsert st.hashMap k h } := by
            unfold writeK RandomPopFreeHashes
            rw [hfh]
          have hlen' : ks.length ≤ rest.length := by
            rw [hfh] at hlen
            simpa using hlen
          have hlen'' : ks.length ≤
              ({ st with freeHashes := rest,
                         hashes := insertSet st.hashes h,
                         hashMap := mapInsert st.hashMap k h } : St).freeHashes.length :=
            hlen'
          obtain ⟨ha, hb, hc, hd⟩ := ih _ hlen''
          simp only [List.foldl_cons, hwk]
          refine ⟨?_, ?_, ?_, ?_⟩
          · rw [ha]
            rfl
          · intro a
            rw [hb a]
            show (a ∈ insertSet st.hashes h ∨ _) ↔ _
            rw [mem_insertSet]
            constructor
            · rintro ((h1 | h1) | h1)
              · exact Or.inl h1
              · exact Or.inr (by simp [h1])
              · exact Or.inr (List.mem_cons_of_mem _ h1)
            · rintro (h1 | h1)
              · exact Or.inl (Or.inl h1)
              · rcases List.mem_cons.mp h1 with h2 | h2
                · exact Or.inl (Or.inr h2)
                · exact Or.inr h2
          · intro k' hk'
            have hne : k' ≠ k := fun hh => hk' (hh ▸ List.mem_cons_self _ _)
            have hnin : k' ∉ ks := fun hh => hk' (List.mem_cons_of_mem _ hh)
            rw [hc k' hnin]
            show lookupKey (mapInsert st.hashMap k h) k' = _
            exact lookupKey_mapInsert_ne st.hashMap h (fun hh => hne hh.symm)
          · intro hnd j hj
            have hknotks : k ∉ ks := (List.nodup_cons.mp hnd).1
            have hndks : ks.Nodup := (List.nodup_cons.mp hnd).2
            cases j with
            | zero =>
                show lookupKey (ks.foldl writeK _).hashMap k = some h
                rw [hc k hknotks]
                show lookupKey (mapInsert st.hashMap k h) k = some h
                exact lookupKey_mapInsert_self st.hashMap k h
            | succ j =>
                have hj' : j < ks.length := by
                  simpa using hj
                have := hd hndks j hj'
                exact this

/-- Running the `CalcFsingle` writes over the single blocks: same shape
as `writeK_run`, for the `SingleHash` table. -/
theorem fsingle_run (bs : List Nat) :
    ∀ st : St, bs.length ≤ st.freeHashes.length →
      (bs.foldl fsingleBlock st).freeHashes = st.freeHashes.drop bs.length ∧
      (∀ a, a ∈ (bs.foldl fsingleBlock st).hashes ↔
        a ∈ st.hashes ∨ a ∈ st.freeHashes.take bs.length) ∧
      (∀ b, b ∉ bs →
        lookupKey (bs.foldl fsingleBlock st).singleHash b =
          lookupKey st.singleHash b) ∧
      (bs.Nodup → ∀ j, j < bs.length →
        lookupKey (bs.foldl fsingleBlock st).singleHash (bs.getD j 0) =
          some (st.freeHashes.getD j 0)) := by
  induction bs with
  | nil =>
      intro st _
      refine ⟨rfl, fun a => by simp, fun b _ => rfl, fun _ j hj => absurd hj (by simp)⟩
  | cons b bs ih =>
      intro st hlen
      cases hfh : st.freeHashes with
      | nil =>
          rw [hfh] at hlen
          simp at hlen
      | cons h rest =>
          have hwk : fsingleBlock st b =
              { st with freeHashes := rest,
                        hashes := insertSet st.hashes h,
                        singleHash := mapInsert st.singleHash b h } := by
            unfold fsingleBlock RandomPopFreeHashes
            rw [hfh]
          have hlen' : bs.length ≤ rest.length := by
            rw [hfh] at hlen
            simpa using hlen
          have hlen'' : bs.length ≤
              ({ st with freeHashes := rest,
                         hashes := insertSet st.hashes h,
                         singleHash := mapInsert st.singleHash b h } : St).freeHashes.length :=
            hlen'
          obtain ⟨ha, hb, hc, hd⟩ := ih _ hlen''
          simp only [List.foldl_cons, hwk]
          refine ⟨?_, ?_, ?_, ?_⟩
          · rw [ha]
            rfl
          · intro a
            rw [hb a]
            show (a ∈ insertSet st.hashes h ∨ _) ↔ _
            rw [mem_insertSet]
            constructor
            · rintro ((h1 | h1) | h1)
              · exact Or.inl h1
              · exact Or.inr (by simp [h1])
              · exact Or.inr (List.mem_cons_of_mem _ h1)
            · rintro (h1 | h1)
              · exact Or.inl (Or.inl h1)
              · rcases List.mem_cons.mp h1 with h2 | h2
                · exact Or.inl (Or.inr h2)
                · exact Or.inr h2
          · intro b' hb'
            have hne : b' ≠ b := fun hh => hb' (hh ▸ List.mem_cons_self _ _)
            have hnin : b' ∉ bs := fun hh => hb' (List.mem_cons_of_mem _ hh)
            rw [hc b' hnin]
            show lookupKey (mapInsert st.singleHash b h) b' = _
            exact lookupKey_mapInsert_ne st.singleHash h (fun hh => hne hh.symm)
          · intro hnd j hj
            have hbnotbs : b ∉ bs := (List.nodup_cons.mp hnd).1
            have hndbs : bs.Nodup := (List.nodup_cons.mp hnd).2
            cases j with
            | zero =>
                show lookupKey (bs.foldl fsingleBlock _).singleHash b = some h
                rw [hc b hbnotbs]
                show lookupKey (mapInsert st.singleHash b h) b = some h
                exact lookupKey_mapInsert_self st.singleHash b h
            | succ j =>
                have hj' : j < bs.length := by
                  simpa using hj
                exact hd hndbs j hj'

/-! ### Properties of the free pool -/

theorem mkFreeHashesAux_eq_filter (hashes : List Nat) :
    ∀ (fuel h : Nat), mkFreeHashesAux hashes fuel h =
      (List.range' h fuel).filter (fun a => !hashes.contains a) := by
  intro fuel
  induction fuel with
  | zero => intro h; rfl
  | succ n ih =>
      intro h
      rw [List.range'_succ, List.filter_cons]
      show (if hashes.contains h then [] else [h]) ++ mkFreeHashesAux hashes n (h + 1) = _
      cases hc : hashes.contains h
      · simp only [Bool.not_false, if_true, if_false, Bool.false_eq_true]
        rw [ih (h + 1)]
        rfl
      · simp only [Bool.not_true, if_true, if_false, Bool.true_eq_false]
        rw [ih (h + 1)]
        rfl

theorem mkFreeHashes_eq_filter (mapSize : Nat) (hashes : List Nat) :
    mkFreeHashes mapSize hashes =
      (List.range' 1 (mapSize - 1)).filter (fun a => !hashes.contains a) :=
  mkFreeHashesAux_eq_filter hashes (mapSize - 1) 1

theorem mem_mkFreeHashes {mapSize a : Nat} {hs : List Nat} :
    a ∈ mkFreeHashes mapSize hs ↔ (1 ≤ a ∧ a < mapSize ∧ a ∉ hs) := by
  rw [mkFreeHashes_eq_filter, List.mem_filter, List.mem_range'_1]
  constructor
  · rintro ⟨⟨h1, h2⟩, h3⟩
    refine ⟨h1, by omega, ?_⟩
    intro hmem
    rw [Bool.not_eq_true', ← Bool.not_eq_true] at h3
    exact h3 (contains_iff_mem.mpr hmem)
  · rintro ⟨h1, h2, h3⟩
    refine ⟨⟨h1, by omega⟩, ?_⟩
    cases hc : hs.contains a
    · rfl
    · exact absurd (contains_iff_mem.mp hc) h3

theorem mkFreeHashes_nodup (mapSize : Nat) (hs : List Nat) :
    (mkFreeHashes mapSize hs).Nodup := by
  rw [mkFreeHashes_eq_filter]
  exact (List.nodup_range' 1 (mapSize - 1) 1 Nat.one_pos).filter _

theorem mkFreeHashes_pairwise_lt (mapSize : Nat) (hs : List Nat) :
    List.Pairwise (· < ·) (mkFreeHashes mapSize hs) := by
  rw [mkFreeHashes_eq_filter]
  exact (List.pairwise_lt_range' 1 (mapSize - 1) 1 (by omega)).filter _

theorem length_filter_pair {α : Type} (l : List α) (p : α → Bool) :
    (l.filter p).length + (l.filter (fun a => !p a)).length = l.length := by
  induction l with
  | nil => rfl
  | cons a l ih =>
      simp only [List.filter_cons]
      cases hp : p a
      · simp [hp]
        omega
      · simp [hp]
        omega

theorem nodup_subset_length {l1 l2 : List Nat} (hnd : l1.Nodup)
    (hsub : ∀ a ∈ l1, a ∈ l2) : l1.length ≤ l2.length := by
  have h1 : l1.toFinset.card = l1.length := List.toFinset_card_of_nodup hnd
  have h2 : l1.toFinset ⊆ l2.toFinset := by
    intro a ha
    rw [List.mem_toFinset] at ha ⊢
    exact hsub a ha
  calc l1.length = l1.toFinset.card := h1.symm
    _ ≤ l2.toFinset.card := Finset.card_le_card h2
    _ ≤ l2.length := List.toFinset_card_le l2

/-- The pool covers everything the committed hashes do not use in
`[1, mapSize)`. -/
theorem mkFreeHashes_length_ge (mapSize : Nat) (hs : List Nat) :
    mapSize - 1 ≤ (mkFreeHashes mapSize hs).length + hs.length := by
  rw [mkFreeHashes_eq_filter]
  have hpair := length_filter_pair (List.range' 1 (mapSize - 1))
    (fun a => hs.contains a)
  have hlr : (List.range' 1 (mapSize - 1)).length = mapSize - 1 := List.length_range' _ _ _
  have hremoved : ((List.range' 1 (mapSize - 1)).filter (fun a => hs.contains a)).length
      ≤ hs.length := by
    refine nodup_subset_length ((List.nodup_range' 1 (mapSize - 1) 1 Nat.one_pos).filter _) ?_
    intro a ha
    have := (List.mem_filter.mp ha).2
    exact contains_iff_mem.mp this
  omega

/-! ### The pipeline after the search: observers -/

theorem sum_map_ones {l : List Nat} {f : Nat → Nat} (h : ∀ b ∈ l, f b = 1) :
    (l.map f).sum = l.length := by
  induction l with
  | nil => rfl
  | cons a l ih =>
      simp only [List.map_cons, List.sum_cons, List.length_cons]
      rw [h a (List.mem_cons_self _ _), ih (fun b hb => h b (List.mem_cons_of_mem _ hb))]
      omega

theorem uEdgeKeys_length (cfg : CFG) (blocks : List Nat) :
    (uEdgeKeys cfg blocks).length =
      (blocks.map (fun bb => (cfg.preds bb).length)).sum := by
  unfold uEdgeKeys
  rw [List.length_flatMap]
  congr 1
  apply List.map_congr_left
  intro bb _
  show ((cfg.preds bb).map _).length = (cfg.preds bb).length
  exact List.length_map _ _

/-- Counting: with strictly fewer edges than `MAP_SIZE` the free pool
serves every fallback consumer. -/
theorem edge_counting (p : Nat) (cfg : CFG) (hp : 1 ≤ p)
    (hedges : totalEdges cfg < 2 ^ p) :
    (uKeys p cfg).length + (singleBBs cfg).length ≤ (freePool p cfg).length := by
  obtain ⟨hInv, hPart⟩ := fmul_state_inv p cfg hp
  set st1 := CalcFmul p cfg (multiBBs cfg) initSt with hst1
  set f : Nat → Nat := fun bb => (cfg.preds bb).length with hf
  have hperm : (st1.solv ++ st1.unSolv).Perm (multiBBs cfg) :=
    Multiset.coe_eq_coe.mp hPart
  have hsum1 : ((st1.solv ++ st1.unSolv).map f).sum = ((multiBBs cfg).map f).sum :=
    (hperm.map f).sum_eq
  have hsum2 : (st1.solv.map f).sum + (st1.unSolv.map f).sum =
      ((multiBBs cfg).map f).sum := by
    rw [← hsum1, List.map_append, List.sum_append]
  have hsplit : (singleBBs cfg ++ multiBBs cfg).Perm (List.range cfg.numBlocks) :=
    List.filter_append_perm _ _
  have hsum3 : ((singleBBs cfg).map f).sum + ((multiBBs cfg).map f).sum =
      totalEdges cfg := by
    have := (hsplit.map f).sum_eq
    rw [List.map_append, List.sum_append] at this
    exact this
  have hsingle1 : ((singleBBs cfg).map f).sum = (singleBBs cfg).length := by
    apply sum_map_ones
    intro b hb
    exact (mem_singleBBs.mp hb).2
  have hm : (uKeys p cfg).length = (st1.unSolv.map f).sum :=
    uEdgeKeys_length cfg st1.unSolv
  have hhlen : st1.hashes.length = (st1.solv.map f).sum := hInv.2.2.2.2.1
  have hpool : 2 ^ p - 1 ≤ (freePool p cfg).length + st1.hashes.length :=
    mkFreeHashes_length_ge (2 ^ p) st1.hashes
  have hp2 : 1 ≤ 2 ^ p := Nat.one_le_two_pow
  omega

/-- Resolution of the pipeline's committed tables: `Params`, `Solv`,
`UnSolv` are the search's; `SingleHash` maps the `i`-th single block to
the `(m + i)`-th pool slot (`m` fallback-edge pops happen first);
`HashMap` maps the `j`-th unsolved edge key to the `j`-th pool slot;
the pool loses exactly the served slots. -/
theorem pipeline_tables (p : Nat) (cfg : CFG) (hp : 1 ≤ p)
    (hedges : totalEdges cfg < 2 ^ p) :
    (pipeline p cfg).params = (searchSt p cfg).params ∧
    (pipeline p cfg).solv = (searchSt p cfg).solv ∧
    (pipeline p cfg).unSolv = (searchSt p cfg).unSolv ∧
    (∀ b, b ∉ singleBBs cfg → lookupKey (pipeline p cfg).singleHash b = none) ∧
    (∀ i, i < (singleBBs cfg).length →
      lookupKey (pipeline p cfg).singleHash ((singleBBs cfg).getD i 0) =
        some ((freePool p cfg).getD ((uKeys p cfg).length + i) 0)) ∧
    ((uKeys p cfg).Nodup → ∀ j, j < (uKeys p cfg).length →
      lookupKey (pipeline p cfg).hashMap ((uKeys p cfg).getD j (0, 0)) =
        some ((freePool p cfg).getD j 0)) ∧
    (pipeline p cfg).freeHashes =
      (freePool p cfg).drop ((uKeys p cfg).length + (singleBBs cfg).length) := by
  obtain ⟨hHM0, hSH0, _⟩ := CalcFmul_tables p cfg hp
  have hcount := edge_counting p cfg hp hedges
  set st1 := CalcFmul p cfg (multiBBs cfg) initSt with hst1
  set st0 : St := { st1 with freeHashes := freePool p cfg } with hst0
  have hfh : CalcFhash p cfg st1 = (uKeys p cfg).foldl writeK st0 := by
    show st0.unSolv.foldl (fhashBlock cfg) st0 = _
    rw [foldl_fhashBlock_eq]
    rfl
  have hm_le : (uKeys p cfg).length ≤ st0.freeHashes.length := by
    show (uKeys p cfg).length ≤ (freePool p cfg).length
    omega
  obtain ⟨hKa, hKb, hKc, hKd⟩ := writeK_run (uKeys p cfg) st0 hm_le
  obtain ⟨hKu1, hKu2, hKu3, hKu4, hKu5⟩ := foldl_writeK_untouched (uKeys p cfg) st0
  set stH := (uKeys p cfg).foldl writeK st0 with hstH
  have hsgl_le : (singleBBs cfg).length ≤ stH.freeHashes.length := by
    rw [hKa]
    show (singleBBs cfg).length ≤ (st0.freeHashes.drop (uKeys p cfg).length).length
    rw [List.length_drop]
    show (singleBBs cfg).length ≤ (freePool p cfg).length - (uKeys p cfg).length
    omega
  obtain ⟨hSa, hSb, hSc, hSd⟩ := fsingle_run (singleBBs cfg) stH hsgl_le
  obtain ⟨hSu1, hSu2, hSu3, hSu4, hSu5⟩ := foldl_fsingle_untouched (singleBBs cfg) stH
  have hpipe : pipeline p cfg = (singleBBs cfg).foldl fsingleBlock stH := by
    show CalcFsingle (singleBBs cfg) (CalcFhash p cfg st1) = _
    rw [hfh]
    rfl
  rw [hpipe]
  have hdropgetD : ∀ i : Nat, (stH.freeHashes).getD i 0 =
      (freePool p cfg).getD ((uKeys p cfg).length + i) 0 := by
    intro i
    rw [hKa]
    show ((st0.freeHashes).drop (uKeys p cfg).length).getD i 0 = _
    rw [List.getD_eq_getElem?_getD, List.getD_eq_getElem?_getD, List.getElem?_drop]
  refine ⟨?_, ?_, ?_, ?_, ?_, ?_, ?_⟩
  · rw [hSu1, hKu1]
    rfl
  · rw [hSu2, hKu2]
    rfl
  · rw [hSu3, hKu3]
    rfl
  · intro b hb
    rw [hSc b hb, hKu4]
    show lookupKey st1.singleHash b = none
    rw [hSH0]
    rfl
  · intro i hi
    rw [hSd (singleBBs_nodup cfg) i hi]
    rw [hdropgetD i]
  · intro hnd j hj
    have := hKd hnd j hj
    rw [hSu4]
    rw [this]
  · rw [hSa, hKa]
    show (st0.freeHashes.drop (uKeys p cfg).length).drop (singleBBs cfg).length =
      (freePool p cfg).drop ((uKeys p cfg).length + (singleBBs cfg).length)
    rw [List.drop_drop]

theorem getD_mem {α : Type} (l : List α) (d : α) {i : Nat} (hi : i < l.length) :
    l.getD i d ∈ l := by
  rw [List.getD_eq_getElem?_getD, List.getElem?_eq_getElem hi]
  exact List.getElem_mem hi

theorem getD_map {α β : Type} (f : α → β) (l : List α) {i : Nat}
    (hi : i < l.length) (d : α) (d' : β) :
    (l.map f).getD i d' = f (l.getD i d) := by
  rw [List.getD_eq_getElem?_getD, List.getD_eq_getElem?_getD, List.getElem?_eq_getElem hi,
    List.getElem?_eq_getElem (by simpa using hi), List.getElem_map]
  rfl

theorem getD_inj {l : List Nat} (hnd : l.Nodup) {i j : Nat}
    (hi : i < l.length) (hj : j < l.length) (hij : i ≠ j) :
    l.getD i 0 ≠ l.getD j 0 := by
  rw [List.getD_eq_getElem?_getD, List.getD_eq_getElem?_getD,
    List.getElem?_eq_getElem hi, List.getElem?_eq_getElem hj]
  intro hcontra
  exact hij ((hnd.getElem_inj_iff).mp hcontra)

theorem getD_pair_inj {l : List (Nat × Nat)} (hnd : l.Nodup) {i j : Nat}
    (hi : i < l.length) (hj : j < l.length)
    (hne : l.getD i (0, 0) ≠ l.getD j (0, 0)) : i ≠ j := by
  intro hcontra
  subst hcontra
  exact hne rfl

/-- `Solv` and `UnSolv` of the search are disjoint and exhaust the
multi blocks. -/
theorem searchSt_partition (p : Nat) (cfg : CFG) (hp : 1 ≤ p) :
    ((searchSt p cfg).solv ++ (searchSt p cfg).unSolv).Perm (multiBBs cfg) ∧
    (searchSt p cfg).solv.Disjoint (searchSt p cfg).unSolv := by
  have hperm : ((searchSt p cfg).solv ++ (searchSt p cfg).unSolv).Perm (multiBBs cfg) :=
    Multiset.coe_eq_coe.mp (fmul_state_inv p cfg hp).2
  have hnd : ((searchSt p cfg).solv ++ (searchSt p cfg).unSolv).Nodup :=
    hperm.symm.nodup (multiBBs_nodup cfg)
  exact ⟨hperm, (List.nodup_append.mp hnd).2.2⟩

/-- Where each valid edge's committed slot comes from: a `SingleHash`
pool slot, a committed search hash, or a `HashMap` pool slot. -/
theorem committedSlot_char (p : Nat) (cfg : CFG) (hp : 1 ≤ p)
    (hedges : totalEdges cfg < 2 ^ p) (hukn : (uKeys p cfg).Nodup)
    (bb i : Nat) (hbb : bb < cfg.numBlocks) (hi : i < (cfg.preds bb).length) :
    ((cfg.preds bb).length = 1 ∧
      ∃ idx, idx < (singleBBs cfg).length ∧ (singleBBs cfg).getD idx 0 = bb ∧
        committedSlot p cfg bb i =
          some ((freePool p cfg).getD ((uKeys p cfg).length + idx) 0)) ∨
    (bb ∈ (searchSt p cfg).solv ∧ (cfg.preds bb).length ≠ 1 ∧
      committedSlot p cfg bb i =
        some ((solvedHashes cfg (pipelineY p cfg) (searchSt p cfg) bb).getD i 0)) ∨
    (bb ∈ (searchSt p cfg).unSolv ∧ (cfg.preds bb).length ≠ 1 ∧
      ∃ j, j < (uKeys p cfg).length ∧
        (uKeys p cfg).getD j (0, 0) =
          (cfg.keys bb, cfg.keys ((cfg.preds bb).getD i 0)) ∧
        committedSlot p cfg bb i = some ((freePool p cfg).getD j 0)) := by
  obtain ⟨hTparams, hTsolv, hTunsolv, hTsglnone, hTsgl, hThm, hTfree⟩ :=
    pipeline_tables p cfg hp hedges
  by_cases hsingle : (cfg.preds bb).length = 1
  · left
    refine ⟨hsingle, ?_⟩
    have hmem : bb ∈ singleBBs cfg := mem_singleBBs.mpr ⟨hbb, hsingle⟩
    obtain ⟨⟨idx, hidx⟩, hget⟩ := List.mem_iff_get.mp hmem
    have hgetD : (singleBBs cfg).getD idx 0 = bb := by
      rw [List.getD_eq_getElem?_getD, List.getElem?_eq_getElem hidx]
      simpa using hget
    refine ⟨idx, hidx, hgetD, ?_⟩
    have hlook := hTsgl idx hidx
    rw [hgetD] at hlook
    simp only [committedSlot]
    rw [hlook]
  · have hmulti : bb ∈ multiBBs cfg := mem_multiBBs.mpr ⟨hbb, hsingle⟩
    have hnotsgl : bb ∉ singleBBs cfg := fun hmem => hsingle (mem_singleBBs.mp hmem).2
    have hsglnone := hTsglnone bb hnotsgl
    obtain ⟨hperm, hdisj⟩ := searchSt_partition p cfg hp
    have hcases : bb ∈ (searchSt p cfg).solv ∨ bb ∈ (searchSt p cfg).unSolv := by
      have := (hperm.mem_iff).mpr hmulti
      simpa [List.mem_append] using this
    obtain ⟨hInv, _⟩ := fmul_state_inv p cfg hp
    have hInvS : SearchInv (pipelineY p cfg) cfg (searchSt p cfg) := hInv
    rcases hcases with hsolv | hunsolv
    · right
      left
      refine ⟨hsolv, hsingle, ?_⟩
      have hSome := (hInvS.2.2.1 bb hsolv).1
      cases hlook : lookupKey (searchSt p cfg).params bb with
      | none =>
          rw [hlook] at hSome
          simp at hSome
      | some xz =>
          obtain ⟨x, z⟩ := xz
          have hsolvedEq : solvedHashes cfg (pipelineY p cfg) (searchSt p cfg) bb =
              hashList cfg bb x (pipelineY p cfg) z := by
            unfold solvedHashes paramsOf
            rw [hlook]
            rfl
          rw [hsolvedEq]
          have hgd : (hashList cfg bb x (pipelineY p cfg) z).getD i 0 =
              edgeHash (cfg.keys bb) (cfg.keys ((cfg.preds bb).getD i 0)) x
                (pipelineY p cfg) z := by
            unfold hashList
            exact getD_map _ _ hi 0 0
          rw [hgd]
          simp only [committedSlot]
          rw [hsglnone, hTparams, hlook]
    · right
      right
      refine ⟨hunsolv, hsingle, ?_⟩
      have hparamsnone : lookupKey (searchSt p cfg).params bb = none := by
        apply hInvS.2.2.2.1
        intro hmem
        exact hdisj hmem hunsolv
      have hkmem : (cfg.keys bb, cfg.keys ((cfg.preds bb).getD i 0)) ∈ uKeys p cfg := by
        unfold uKeys uEdgeKeys
        rw [List.mem_flatMap]
        refine ⟨bb, hunsolv, ?_⟩
        rw [List.mem_map]
        exact ⟨(cfg.preds bb).getD i 0, getD_mem _ _ hi, rfl⟩
      obtain ⟨⟨j, hj⟩, hget⟩ := List.mem_iff_get.mp hkmem
      have hgetD : (uKeys p cfg).getD j (0, 0) =
          (cfg.keys bb, cfg.keys ((cfg.preds bb).getD i 0)) := by
        rw [List.getD_eq_getElem?_getD, List.getElem?_eq_getElem hj]
        simpa using hget
      refine ⟨j, hj, hgetD, ?_⟩
      have hlook := hThm hukn j hj
      rw [hgetD] at hlook
      simp only [committedSlot]
      rw [hsglnone, hTparams, hparamsnone, hlook]

theorem getD_eq_getElem {α : Type} (l : List α) (d : α) {i : Nat} (h : i < l.length) :
    l.getD i d = l[i] := by
  rw [List.getD_eq_getElem?_getD, List.getElem?_eq_getElem h]
  rfl

theorem searchSt_unSolv_nodup (p : Nat) (cfg : CFG) (hp : 1 ≤ p) :
    (searchSt p cfg).unSolv.Nodup := by
  have hperm := (searchSt_partition p cfg hp).1
  have hnd := hperm.symm.nodup (multiBBs_nodup cfg)
  exact (List.nodup_append.mp hnd).2.1

/-- With pairwise-distinct key pairs on the unsolved edges, the
`CalcFhash` key list has no duplicates. -/
theorem uKeys_nodup_of_inj (p : Nat) (cfg : CFG) (hp : 1 ≤ p)
    (hinj : ∀ b1 b2 i1 i2, b1 ∈ (searchSt p cfg).unSolv → b2 ∈ (searchSt p cfg).unSolv →
      i1 < (cfg.preds b1).length → i2 < (cfg.preds b2).length → (b1, i1) ≠ (b2, i2) →
      (cfg.keys b1, cfg.keys ((cfg.preds b1).getD i1 0)) ≠
        (cfg.keys b2, cfg.keys ((cfg.preds b2).getD i2 0))) :
    (uKeys p cfg).Nodup := by
  unfold uKeys uEdgeKeys
  rw [List.nodup_flatMap]
  constructor
  · intro bb hbb
    rw [List.nodup_iff_injective_get]
    rintro ⟨a1, ha1⟩ ⟨a2, ha2⟩ hgeteq
    have hlen1 : a1 < (cfg.preds bb).length := by simpa using ha1
    have hlen2 : a2 < (cfg.preds bb).length := by simpa using ha2
    by_contra hne
    have hfne : a1 ≠ a2 := fun hh => hne (Fin.ext hh)
    have hg1 : ((cfg.preds bb).map (fun pr => (cfg.keys bb, cfg.keys pr))).get ⟨a1, ha1⟩ =
        (cfg.keys bb, cfg.keys ((cfg.preds bb).getD a1 0)) := by
      rw [List.get_eq_getElem, List.getElem_map, ← getD_eq_getElem (cfg.preds bb) 0 hlen1]
    have hg2 : ((cfg.preds bb).map (fun pr => (cfg.keys bb, cfg.keys pr))).get ⟨a2, ha2⟩ =
        (cfg.keys bb, cfg.keys ((cfg.preds bb).getD a2 0)) := by
      rw [List.get_eq_getElem, List.getElem_map, ← getD_eq_getElem (cfg.preds bb) 0 hlen2]
    exact hinj bb bb a1 a2 hbb hbb hlen1 hlen2
      (fun hh => hfne (congrArg Prod.snd hh)) (by rw [← hg1, ← hg2, hgeteq])
  · have hnd := searchSt_unSolv_nodup p cfg hp
    refine List.Pairwise.imp_of_mem ?_ hnd
    intro b1 b2 hb1 hb2 hne12
    intro k hk1 hk2
    rw [List.mem_map] at hk1 hk2
    obtain ⟨pr1, hpr1, hkeq1⟩ := hk1
    obtain ⟨pr2, hpr2, hkeq2⟩ := hk2
    obtain ⟨⟨a1, ha1⟩, hget1⟩ := List.mem_iff_get.mp hpr1
    obtain ⟨⟨a2, ha2⟩, hget2⟩ := List.mem_iff_get.mp hpr2
    apply hinj b1 b2 a1 a2 hb1 hb2 ha1 ha2
      (fun hh => hne12 (congrArg Prod.fst hh))
    have e1 : (cfg.preds b1).getD a1 0 = pr1 := by
      rw [getD_eq_getElem (cfg.preds b1) 0 ha1]
      simpa using hget1
    have e2 : (cfg.preds b2).getD a2 0 = pr2 := by
      rw [getD_eq_getElem (cfg.preds b2) 0 ha2]
      simpa using hget2
    rw [e1, e2, hkeq1, hkeq2]

theorem solvedHashes_length (cfg : CFG) (y : Nat) (st : St) (bb : Nat) :
    (solvedHashes cfg y st bb).length = (cfg.preds bb).length := by
  unfold solvedHashes hashList
  exact List.length_map _ _

/-- C1 (amended): after the pipeline runs on a graph with strictly
fewer than `MAP_SIZE` instrumented edges, and in which the edges of
blocks left unsolved by the search carry pairwise-distinct
`(cur_key, pred_key)` pairs, no two distinct edges are assigned the
same map slot across the search's committed `Hashes`, the `HashMap`
values and the `SingleHash` values. -/
theorem c1_amended_global_uniqueness (p : Nat) (cfg : CFG) (hp : 1 ≤ p)
    (hedges : totalEdges cfg < 2 ^ p)
    (hinj : ∀ b1 b2 i1 i2, b1 ∈ (pipeline p cfg).unSolv →
      b2 ∈ (pipeline p cfg).unSolv →
      i1 < (cfg.preds b1).length → i2 < (cfg.preds b2).length → (b1, i1) ≠ (b2, i2) →
      (cfg.keys b1, cfg.keys ((cfg.preds b1).getD i1 0)) ≠
        (cfg.keys b2, cfg.keys ((cfg.preds b2).getD i2 0)))
    (b1 b2 i1 i2 : Nat) (hb1 : b1 < cfg.numBlocks) (hb2 : b2 < cfg.numBlocks)
    (hi1 : i1 < (cfg.preds b1).length) (hi2 : i2 < (cfg.preds b2).length)
    (hne : (b1, i1) ≠ (b2, i2)) :
    ∃ s1 s2, committedSlot p cfg b1 i1 = some s1 ∧
      committedSlot p cfg b2 i2 = some s2 ∧ s1 ≠ s2 := by
  have hUnEq : (pipeline p cfg).unSolv = (searchSt p cfg).unSolv :=
    (pipeline_tables p cfg hp hedges).2.2.1
  rw [hUnEq] at hinj
  have hukn := uKeys_nodup_of_inj p cfg hp hinj
  have hchar1 := committedSlot_char p cfg hp hedges hukn b1 i1 hb1 hi1
  have hchar2 := committedSlot_char p cfg hp hedges hukn b2 i2 hb2 hi2
  have hcount := edge_counting p cfg hp hedges
  have hpoolnd : (freePool p cfg).Nodup := mkFreeHashes_nodup _ _
  have hInvS : SearchInv (pipelineY p cfg) cfg (searchSt p cfg) :=
    (fmul_state_inv p cfg hp).1
  have hpoolfresh : ∀ j, j < (freePool p cfg).length →
      (freePool p cfg).getD j 0 ∉ (searchSt p cfg).hashes := by
    intro j hj hmem
    have hjmem : (freePool p cfg).getD j 0 ∈
        mkFreeHashes (2 ^ p) (searchSt p cfg).hashes := getD_mem _ _ hj
    exact (mem_mkFreeHashes.mp hjmem).2.2 hmem
  have hsolvIn : ∀ b, b ∈ (searchSt p cfg).solv → ∀ i, i < (cfg.preds b).length →
      (solvedHashes cfg (pipelineY p cfg) (searchSt p cfg) b).getD i 0 ∈
        (searchSt p cfg).hashes := by
    intro b hb i hi
    apply (hInvS.2.2.1 b hb).2.2
    apply getD_mem
    rw [solvedHashes_length]
    exact hi
  rcases hchar1 with ⟨hl1, idx1, hidx1, hgd1, hslot1⟩ |
      ⟨hsolv1, hm1, hslot1⟩ | ⟨hun1, hm1, j1, hj1, hkey1, hslot1⟩ <;>
    rcases hchar2 with ⟨hl2, idx2, hidx2, hgd2, hslot2⟩ |
        ⟨hsolv2, hm2, hslot2⟩ | ⟨hun2, hm2, j2, hj2, hkey2, hslot2⟩
  · -- single vs single
    refine ⟨_, _, hslot1, hslot2, ?_⟩
    have hbne : b1 ≠ b2 := by
      intro hh
      subst hh
      have : i1 = i2 := by omega
      exact hne (by rw [this])
    have hidxne : idx1 ≠ idx2 := by
      intro hh
      rw [hh, hgd2] at hgd1
      exact hbne hgd1.symm
    apply getD_inj hpoolnd (by omega) (by omega)
    omega
  · -- single vs solved
    refine ⟨_, _, hslot1, hslot2, ?_⟩
    intro hh
    have hin : (solvedHashes cfg (pipelineY p cfg) (searchSt p cfg) b2).getD i2 0 ∈
        (searchSt p cfg).hashes := hsolvIn b2 hsolv2 i2 hi2
    rw [← hh] at hin
    exact hpoolfresh _ (by omega) hin
  · -- single vs unsolved
    refine ⟨_, _, hslot1, hslot2, ?_⟩
    apply getD_inj hpoolnd (by omega) (by omega)
    omega
  · -- solved vs single
    refine ⟨_, _, hslot1, hslot2, ?_⟩
    intro hh
    have hin : (solvedHashes cfg (pipelineY p cfg) (searchSt p cfg) b1).getD i1 0 ∈
        (searchSt p cfg).hashes := hsolvIn b1 hsolv1 i1 hi1
    rw [hh] at hin
    exact hpoolfresh _ (by omega) hin
  · -- solved vs solved
    refine ⟨_, _, hslot1, hslot2, ?_⟩
    by_cases hbb : b1 = b2
    · subst hbb
      have hii : i1 ≠ i2 := by
        intro hh
        exact hne (by rw [hh])
      have hnd : (solvedHashes cfg (pipelineY p cfg) (searchSt p cfg) b1).Nodup :=
        (hInvS.2.2.1 b1 hsolv1).2.1
      apply getD_inj hnd ?_ ?_ hii
      · rw [solvedHashes_length]
        exact hi1
      · rw [solvedHashes_length]
        exact hi2
    · intro hh
      have hin1 : (solvedHashes cfg (pipelineY p cfg) (searchSt p cfg) b1).getD i1 0 ∈
          solvedHashes cfg (pipelineY p cfg) (searchSt p cfg) b1 := by
        apply getD_mem
        rw [solvedHashes_length]
        exact hi1
      have hin2 : (solvedHashes cfg (pipelineY p cfg) (searchSt p cfg) b2).getD i2 0 ∈
          solvedHashes cfg (pipelineY p cfg) (searchSt p cfg) b2 := by
        apply getD_mem
        rw [solvedHashes_length]
        exact hi2
      have hcross := hInvS.2.2.2.2.2 b1 hsolv1 b2 hsolv2 hbb _ hin1
      rw [hh] at hcross
      exact hcross hin2
  · -- solved vs unsolved
    refine ⟨_, _, hslot1, hslot2, ?_⟩
    intro hh
    have hin : (solvedHashes cfg (pipelineY p cfg) (searchSt p cfg) b1).getD i1 0 ∈
        (searchSt p cfg).hashes := hsolvIn b1 hsolv1 i1 hi1
    rw [hh] at hin
    exact hpoolfresh _ (by omega) hin
  · -- unsolved vs single
    refine ⟨_, _, hslot1, hslot2, ?_⟩
    apply getD_inj hpoolnd (by omega) (by omega)
    omega
  · -- unsolved vs solved
    refine ⟨_, _, hslot1, hslot2, ?_⟩
    intro hh
    have hin : (solvedHashes cfg (pipelineY p cfg) (searchSt p cfg) b2).getD i2 0 ∈
        (searchSt p cfg).hashes := hsolvIn b2 hsolv2 i2 hi2
    rw [← hh] at hin
    exact hpoolfresh _ (by omega) hin
  · -- unsolved vs unsolved
    refine ⟨_, _, hslot1, hslot2, ?_⟩
    have hkne : (cfg.keys b1, cfg.keys ((cfg.preds b1).getD i1 0)) ≠
        (cfg.keys b2, cfg.keys ((cfg.preds b2).getD i2 0)) :=
      hinj b1 b2 i1 i2 hun1 hun2 hi1 hi2 hne
    have hjne : j1 ≠ j2 := by
      intro hh
      rw [hh, hkey2] at hkey1
      exact hkne hkey1.symm
    apply getD_inj hpoolnd (by omega) (by omega) hjne


/-! ### Claim theorems -/

/-- C1 counterexample: on `cfgKeyCollision` (two edges, well within
`MAP_SIZE = 4`) the two distinct edges entering block 2 from the
equal-keyed blocks 0 and 1 resolve through the same `HashMap` entry
`(2, 1)` and are assigned the same slot 2, refuting the claimed global
uniqueness as stated. -/
theorem c1_counterexample_shared_slot :
    totalEdges cfgKeyCollision ≤ 2 ^ 2 ∧
    ((2, 0) : Nat × Nat) ≠ (2, 1) ∧
    (0 : Nat) < (cfgKeyCollision.preds 2).length ∧
    (1 : Nat) < (cfgKeyCollision.preds 2).length ∧
    (pipeline 2 cfgKeyCollision).unSolv = [2] ∧
    committedSlot 2 cfgKeyCollision 2 0 = some 2 ∧
    committedSlot 2 cfgKeyCollision 2 1 = some 2 := by
  decide

/-- C2 counterexample: at `(cur, pred) = (2, 0)` and
`x = y = z = 1` (all in range for `MAP_SIZE = 4`) the hash the search
computes is `(2 >> 1) XOR ((0 >> 1) + 1) = 0`, not
`((2 >> 1) XOR (0 >> 1)) + 1 mod 4 = 2`; on `cfgC2` the search indeed
solves block 2 with these parameters and commits slot 0 for that edge,
and the spec-formula value 2 is not committed at all. -/
theorem c2_counterexample_precedence :
    edgeHash 2 0 1 1 1 = 0 ∧
    specEdgeHash 2 2 0 1 1 1 = 2 ∧
    lookupKey (pipeline 2 cfgC2).params 2 = some (1, 1) ∧
    (pipeline 2 cfgC2).globalY = 1 ∧
    committedSlot 2 cfgC2 2 0 = some 0 ∧
    (pipeline 2 cfgC2).hashes.contains 0 = true ∧
    (pipeline 2 cfgC2).hashes.contains 2 = false := by
  decide

/-- C3 counterexample: the zero-predecessor block of `cfgEntry` is
classified multi, enters the parameter search, is solved immediately
with `(x, z) = (1, 1)`, and emission instruments it with the
parametric strategy — it is not kept out of the search and it does
receive instrumentation. -/
theorem c3_counterexample_entry_block :
    (cfgEntry.preds 0).length = 0 ∧
    0 ∈ multiBBs cfgEntry ∧
    (pipeline 2 cfgEntry).solv = [0] ∧
    lookupKey (pipeline 2 cfgEntry).params 0 = some (1, 1) ∧
    strategyOf (pipeline 2 cfgEntry) 0 = Strategy.param 1 1 1 := by
  decide

/-- C4: on `cfgKeyCollision` block 2 has two predecessors and stays
unsolved; `CalcFhash` fills its `HashMap` entry, but emission leaves
the block with no strategy at all (`MapPtrIdx` stays `NULL`; the
table-lookup emission is commented out in the source), so the claimed
table strategy is never exposed. -/
theorem c4_unsolved_block_no_strategy :
    (cfgKeyCollision.preds 2).length = 2 ∧
    (pipeline 2 cfgKeyCollision).unSolv = [2] ∧
    lookupKey (pipeline 2 cfgKeyCollision).hashMap (2, 1) = some 2 ∧
    strategyOf (pipeline 2 cfgKeyCollision) 2 = Strategy.nullPtr := by
  decide

/-- C5: on `cfgExhaust` (five single-predecessor consumers against the
three-slot pool of `MAP_SIZE = 4`) the pool empties and the code keeps
popping without any check — no error is surfaced, and blocks 4 and 5
are silently aliased to the same junk slot (in the C++ source this
dereferences `begin()` of an empty `std::set`, undefined behaviour). -/
theorem c5_exhaustion_not_surfaced :
    (pipeline 2 cfgExhaust).freeHashes = [] ∧
    lookupKey (pipeline 2 cfgExhaust).singleHash 4 = some 0 ∧
    lookupKey (pipeline 2 cfgExhaust).singleHash 5 = some 0 := by
  decide

/-- C7 counterexample: on `cfgKeyCollision` no trial succeeds, the
last trial's partial result (`UnSolv = [2]`, trial index 2) is kept,
but `globalY` keeps its zero initialisation instead of becoming the
accepted trial's `y = 2`. -/
theorem c7_counterexample_global_shift_zero :
    (pipeline 2 cfgKeyCollision).unSolv = [2] ∧
    pipelineY 2 cfgKeyCollision = 2 ∧
    (pipeline 2 cfgKeyCollision).globalY = 0 ∧
    (0 : Nat) ≠ 2 := by
  decide

/-- C8 counterexample: on `cfgEntry` the search commits no hashes, yet
slot 0 — uncommitted and inside `[0, MAP_SIZE)` — is not in the pool
the fallback phase builds: the pool is `{1, 2, 3}`, not `{0, 1, 2, 3}`. -/
theorem c8_counterexample_slot_zero_missing :
    (searchSt 2 cfgEntry).hashes = [] ∧
    freePool 2 cfgEntry = [1, 2, 3] ∧
    ¬ (0 ∈ freePool 2 cfgEntry) ∧
    (pipeline 2 cfgEntry).freeHashes = [1, 2, 3] := by
  decide

/-- For `uint32_t` keys below `MAP_SIZE = 2 ^ p` (`p ≤ 32`), a shift
`y ≥ 1` and an offset `z ≤ p`, the addition in the edge hash cannot
wrap: the `mod 2 ^ 32` of the model is the identity. -/
theorem edgeHash_no_overflow {p cur pred x y z : Nat} (hp32 : p ≤ 32)
    (hpred : pred < 2 ^ p) (hy : 1 ≤ y) (hz2 : z ≤ p) :
    edgeHash cur pred x y z = (cur >>> x) ^^^ ((pred >>> y) + z) := by
  unfold edgeHash U32
  have hdiv : pred >>> y = pred / 2 ^ y := Nat.shiftRight_eq_div_pow pred y
  have h2y : 2 ≤ 2 ^ y := by
    calc 2 = 2 ^ 1 := (pow_one 2).symm
    _ ≤ 2 ^ y := Nat.pow_le_pow_right (by omega) hy
  have hle : pred / 2 ^ y ≤ pred / 2 := Nat.div_le_div_left h2y (by omega)
  have hpredlt : pred < 4294967296 := by
    have : (2 : Nat) ^ p ≤ 2 ^ 32 := Nat.pow_le_pow_right (by omega) hp32
    have h32 : (2 : Nat) ^ 32 = 4294967296 := by norm_num
    omega
  have hhalf : pred / 2 < 2147483648 := by omega
  have hsum : (pred >>> y) + z < 4294967296 := by
    rw [hdiv]
    omega
  rw [Nat.mod_eq_of_lt hsum]

/-- C2 (amended): for keys below `MAP_SIZE` and parameters in range,
the value the search computes and commits for an edge is
`(cur_key >> x) XOR ((pred_key >> y) + z)` — C++ precedence binds the
`+ z` to the shifted predecessor key — with no modulo reduction at
all (neither by `MAP_SIZE` nor, effectively, by `2^32`). -/
theorem c2_amended_edge_hash_formula (p cur pred x y z : Nat) (hp32 : p ≤ 32)
    (hcur : cur < 2 ^ p) (hpred : pred < 2 ^ p)
    (hx1 : 1 ≤ x) (hx2 : x ≤ p) (hy1 : 1 ≤ y) (hy2 : y ≤ p)
    (hz1 : 1 ≤ z) (hz2 : z ≤ p) :
    edgeHash cur pred x y z = (cur >>> x) ^^^ ((pred >>> y) + z) :=
  edgeHash_no_overflow hp32 hpred hy1 hz2

/-- C2 witness: the amended formula instantiated at `MAP_SIZE = 4`,
keys `(2, 0)` and `x = y = z = 1`. -/
theorem c2_amended_witness :
    edgeHash 2 0 1 1 1 = (2 >>> 1) ^^^ ((0 >>> 1) + 1) :=
  c2_amended_edge_hash_formula 2 2 0 1 1 1 (by decide) (by decide) (by decide)
    (by decide) (by decide) (by decide) (by decide) (by decide) (by decide)

/-- C9: for block keys in `[0, MAP_SIZE)` and parameters
`x, y, z ∈ [1, log2 MAP_SIZE]`, the edge hash the search computes and
commits is strictly below `MAP_SIZE`, although the computation performs
no explicit modulo reduction. -/
theorem c9_edge_hash_in_range (p cur pred x y z : Nat) (hp32 : p ≤ 32)
    (hcur : cur < 2 ^ p) (hpred : pred < 2 ^ p)
    (hx1 : 1 ≤ x) (hx2 : x ≤ p) (hy1 : 1 ≤ y) (hy2 : y ≤ p)
    (hz1 : 1 ≤ z) (hz2 : z ≤ p) :
    edgeHash cur pred x y z < 2 ^ p := by
  rw [edgeHash_no_overflow hp32 hpred hy1 hz2]
  have hp1 : 1 ≤ p := le_trans hz1 hz2
  have hsplit : 2 ^ p = 2 * 2 ^ (p - 1) := by
    calc 2 ^ p = 2 ^ (1 + (p - 1)) := by congr 1; omega
    _ = 2 * 2 ^ (p - 1) := by rw [pow_add, pow_one]
  apply Nat.xor_lt_two_pow
  · have h1 : cur >>> x ≤ cur := by
      rw [Nat.shiftRight_eq_div_pow]
      exact Nat.div_le_self cur (2 ^ x)
    omega
  · have hdiv : pred >>> y = pred / 2 ^ y := Nat.shiftRight_eq_div_pow pred y
    have h2y : 2 ≤ 2 ^ y := by
      calc 2 = 2 ^ 1 := (pow_one 2).symm
      _ ≤ 2 ^ y := Nat.pow_le_pow_right (by omega) hy1
    have hle : pred / 2 ^ y ≤ pred / 2 := Nat.div_le_div_left h2y (by omega)
    have hhalf : pred / 2 < 2 ^ (p - 1) := by omega
    have hzp : z ≤ 2 ^ (p - 1) := by
      have := Nat.lt_two_pow (p - 1)
      omega
    rw [hdiv]
    omega

/-- C9 witness: keys `(3, 3)`, parameters `x = y = z = 1`, at
`MAP_SIZE = 4`. -/
theorem c9_witness : edgeHash 3 3 1 1 1 < 2 ^ 2 :=
  c9_edge_hash_in_range 2 3 3 1 1 1 (by decide) (by decide) (by decide)
    (by decide) (by decide) (by decide) (by decide) (by decide) (by decide)

/-- C8 (amended): at the start of the fallback phase the pool is
exactly the complement of the committed `Hashes` within
`[1, MAP_SIZE)` — slot `0` is never pooled — and each allocation
removes the popped slot from the pool and adds it to `Hashes`. -/
theorem c8_amended_pool_complement (p : Nat) (hs : List Nat) (st : St)
    (hne : st.freeHashes ≠ []) :
    (∀ h, h ∈ mkFreeHashes (2 ^ p) hs ↔ (1 ≤ h ∧ h < 2 ^ p ∧ h ∉ hs)) ∧
    st.freeHashes =
      (RandomPopFreeHashes st).1 :: (RandomPopFreeHashes st).2.freeHashes ∧
    (RandomPopFreeHashes st).1 ∈ (RandomPopFreeHashes st).2.hashes ∧
    (∀ a, a ∈ (RandomPopFreeHashes st).2.hashes ↔
      a ∈ st.hashes ∨ a = (RandomPopFreeHashes st).1) := by
  refine ⟨fun h => mem_mkFreeHashes, ?_, ?_, ?_⟩
  · cases hfh : st.freeHashes with
    | nil => exact absurd hfh hne
    | cons h rest =>
        unfold RandomPopFreeHashes
        rw [hfh]
  · cases hfh : st.freeHashes with
    | nil => exact absurd hfh hne
    | cons h rest =>
        unfold RandomPopFreeHashes
        rw [hfh]
        exact mem_insertSet.mpr (Or.inr rfl)
  · intro a
    cases hfh : st.freeHashes with
    | nil => exact absurd hfh hne
    | cons h rest =>
        unfold RandomPopFreeHashes
        rw [hfh]
        exact mem_insertSet

/-- C8 witness: the pool characterisation at `MAP_SIZE = 4` with no
committed hashes, and a pop from the pool `[1, 2, 3]`. -/
theorem c8_amended_witness :
    (∀ h, h ∈ mkFreeHashes (2 ^ 2) [] ↔ (1 ≤ h ∧ h < 2 ^ 2 ∧ h ∉ ([] : List Nat))) ∧
    ({ initSt with freeHashes := [1, 2, 3] } : St).freeHashes =
      (RandomPopFreeHashes { initSt with freeHashes := [1, 2, 3] }).1 ::
        (RandomPopFreeHashes { initSt with freeHashes := [1, 2, 3] }).2.freeHashes ∧
    (RandomPopFreeHashes { initSt with freeHashes := [1, 2, 3] }).1 ∈
      (RandomPopFreeHashes { initSt with freeHashes := [1, 2, 3] }).2.hashes ∧
    (∀ a, a ∈ (RandomPopFreeHashes { initSt with freeHashes := [1, 2, 3] }).2.hashes ↔
      a ∈ ({ initSt with freeHashes := [1, 2, 3] } : St).hashes ∨
        a = (RandomPopFreeHashes { initSt with freeHashes := [1, 2, 3] }).1) :=
  c8_amended_pool_complement 2 [] { initSt with freeHashes := [1, 2, 3] } (by decide)

/-- C6: the nested search loops equal the explicit first-fit
formulation — `y` tried in ascending order from 1 with the first fully
successful trial winning, each trial resetting the committed set and
the solved/unsolved lists and visiting the multi blocks in order, and
each block taking the first `(x, z)` (x outer, z inner, both ascending
from 1) whose edge hashes are pairwise distinct and disjoint from the
hashes already committed, committing immediately and never rolling
back earlier blocks. -/
theorem c6_first_fit_enumeration (p : Nat) (cfg : CFG) (multi : List Nat)
    (st : St) (hp : 1 ≤ p) :
    CalcFmul p cfg multi st = fmulSpec p cfg multi st := by
  rw [CalcFmul_eq_find? p cfg multi st hp]
  unfold fmulSpec
  have htr : ∀ y, trialSpec p y cfg multi st = trial p y cfg multi st :=
    fun y => (trial_eq_spec p y cfg multi st).symm
  have hpred : (fun y => (trialSpec p y cfg multi st).unSolv.isEmpty) =
      (fun y => (trial p y cfg multi st).unSolv.isEmpty) := by
    funext y
    rw [htr y]
  rw [hpred]
  cases hfind : (List.range' 1 p).find?
      (fun y => (trial p y cfg multi st).unSolv.isEmpty) with
  | some y => simp only [htr]
  | none => simp only [htr]

/-- C6 witness: the equality instantiated on the key-collision graph
at `MAP_SIZE = 4`. -/
theorem c6_witness :
    CalcFmul 2 cfgKeyCollision (multiBBs cfgKeyCollision) initSt =
      fmulSpec 2 cfgKeyCollision (multiBBs cfgKeyCollision) initSt :=
  c6_first_fit_enumeration 2 cfgKeyCollision (multiBBs cfgKeyCollision) initSt
    (by decide)

/-- C7 (amended): the search stops at the first `y` whose trial leaves
no unsolved block, and that `y` becomes the module-wide `GlobalShift`;
when no `y` in `[1, log2 MAP_SIZE]` fully succeeds, the last trial's
partial result (its `Params`, `Hashes` and `UnSolv`, at `y = p`) is
kept, but `GlobalShift` keeps its zero initialisation — it does not
become the accepted trial's `y`. -/
theorem c7_amended_global_shift (p : Nat) (cfg : CFG) (hp : 1 ≤ p) :
    (∀ y0, (List.range' 1 p).find?
        (fun y => (trial p y cfg (multiBBs cfg) initSt).unSolv.isEmpty) = some y0 →
      CalcFmul p cfg (multiBBs cfg) initSt =
        { trial p y0 cfg (multiBBs cfg) initSt with globalY := y0 }) ∧
    ((List.range' 1 p).find?
        (fun y => (trial p y cfg (multiBBs cfg) initSt).unSolv.isEmpty) = none →
      CalcFmul p cfg (multiBBs cfg) initSt = trial p p cfg (multiBBs cfg) initSt ∧
      (CalcFmul p cfg (multiBBs cfg) initSt).globalY = 0) := by
  constructor
  · intro y0 hfind
    rw [CalcFmul_eq_find? p cfg (multiBBs cfg) initSt hp, hfind]
  · intro hfind
    rw [CalcFmul_eq_find? p cfg (multiBBs cfg) initSt hp, hfind]
    refine ⟨rfl, ?_⟩
    exact (trial_passive p p cfg (multiBBs cfg) initSt).2.2.2

/-- C7 witness: on the key-collision graph no trial succeeds; the kept
state is the last trial's and `GlobalShift` stays 0. -/
theorem c7_amended_witness :
    CalcFmul 2 cfgKeyCollision (multiBBs cfgKeyCollision) initSt =
      trial 2 2 cfgKeyCollision (multiBBs cfgKeyCollision) initSt ∧
    (CalcFmul 2 cfgKeyCollision (multiBBs cfgKeyCollision) initSt).globalY = 0 :=
  (c7_amended_global_shift 2 cfgKeyCollision (by decide)).2 (by decide)

theorem popSeq_eq_take : ∀ (k : Nat) (st : St), k ≤ st.freeHashes.length →
    popSeq st k = st.freeHashes.take k := by
  intro k
  induction k with
  | zero =>
      intro st _
      rfl
  | succ n ih =>
      intro st hlen
      cases hfh : st.freeHashes with
      | nil =>
          rw [hfh] at hlen
          simp at hlen
      | cons h rest =>
          show (RandomPopFreeHashes st).1 :: popSeq (RandomPopFreeHashes st).2 n = _
          unfold RandomPopFreeHashes
          rw [hfh]
          have hlen' : n ≤ rest.length := by
            rw [hfh] at hlen
            simpa using hlen
          have := ih { st with freeHashes := rest, hashes := insertSet st.hashes h }
            hlen'
          rw [this]
          rfl

/-- C10: `RandomPopFreeHashes` always removes and returns the least
element of the (ascending) pool; across the whole fallback phase — all
`HashMap` pops, then all `SingleHash` pops — the slots handed out are
exactly the first `m + s` elements of the ascending pool, a strictly
increasing sequence fully determined by the search's committed
`Hashes`. -/
theorem c10_pop_least_ascending (p : Nat) (cfg : CFG) (hp : 1 ≤ p)
    (hedges : totalEdges cfg < 2 ^ p) :
    (∀ st : St, List.Sorted (· < ·) st.freeHashes → st.freeHashes ≠ [] →
      ((RandomPopFreeHashes st).1 ∈ st.freeHashes ∧
        ∀ a ∈ st.freeHashes, (RandomPopFreeHashes st).1 ≤ a)) ∧
    popSeq { searchSt p cfg with freeHashes := freePool p cfg }
        ((uKeys p cfg).length + (singleBBs cfg).length) =
      (freePool p cfg).take ((uKeys p cfg).length + (singleBBs cfg).length) ∧
    List.Sorted (· < ·)
      ((freePool p cfg).take ((uKeys p cfg).length + (singleBBs cfg).length)) ∧
    (pipeline p cfg).freeHashes =
      (freePool p cfg).drop ((uKeys p cfg).length + (singleBBs cfg).length) := by
  refine ⟨?_, ?_, ?_, ?_⟩
  · intro st hsort hne
    cases hfh : st.freeHashes with
    | nil => exact absurd hfh hne
    | cons h rest =>
        have hpop : (RandomPopFreeHashes st).1 = h := by
          unfold RandomPopFreeHashes
          rw [hfh]
        rw [hpop]
        refine ⟨List.mem_cons_self h rest, ?_⟩
        intro a ha
        rw [hfh] at hsort
        rcases List.mem_cons.mp ha with rfl | hmem
        · exact le_refl a
        · exact le_of_lt ((List.pairwise_cons.mp hsort).1 a hmem)
  · apply popSeq_eq_take
    show (uKeys p cfg).length + (singleBBs cfg).length ≤ (freePool p cfg).length
    exact edge_counting p cfg hp hedges
  · exact (mkFreeHashes_pairwise_lt (2 ^ p) (searchSt p cfg).hashes).sublist
      (List.take_sublist _ _)
  · exact (pipeline_tables p cfg hp hedges).2.2.2.2.2.2

/-- C10 witness: the fallback allocation on the spec §8 diamond graph
at `MAP_SIZE = 8`. -/
theorem c10_witness :
    (∀ st : St, List.Sorted (· < ·) st.freeHashes → st.freeHashes ≠ [] →
      ((RandomPopFreeHashes st).1 ∈ st.freeHashes ∧
        ∀ a ∈ st.freeHashes, (RandomPopFreeHashes st).1 ≤ a)) ∧
    popSeq { searchSt 3 cfgDiamond with freeHashes := freePool 3 cfgDiamond }
        ((uKeys 3 cfgDiamond).length + (singleBBs cfgDiamond).length) =
      (freePool 3 cfgDiamond).take
        ((uKeys 3 cfgDiamond).length + (singleBBs cfgDiamond).length) ∧
    List.Sorted (· < ·)
      ((freePool 3 cfgDiamond).take
        ((uKeys 3 cfgDiamond).length + (singleBBs cfgDiamond).length)) ∧
    (pipeline 3 cfgDiamond).freeHashes =
      (freePool 3 cfgDiamond).drop
        ((uKeys 3 cfgDiamond).length + (singleBBs cfgDiamond).length) :=
  c10_pop_least_ascending 3 cfgDiamond (by decide) (by decide)

/-! ### Zero-predecessor blocks in the search -/

theorem okParams_zero_pred (cfg : CFG) (bb y : Nat) (hashes : List Nat)
    (hpreds : cfg.preds bb = []) (x z : Nat) :
    okParams cfg bb y hashes x z = true := by
  unfold okParams hashList isIntersection
  rw [hpreds]
  rfl

theorem findZ_first (p : Nat) (cond : Nat → Bool) (hp : 1 ≤ p)
    (hc : cond 1 = true) : findZ p cond 1 = some 1 := by
  unfold findZ
  obtain ⟨n, rfl⟩ : ∃ n, p = n + 1 := ⟨p - 1, by omega⟩
  have hfuel : n + 1 + 1 - 1 = n + 1 := by omega
  rw [hfuel]
  unfold findZAux
  rw [hc]
  rfl

theorem findXZ_first (p : Nat) (cond : Nat → Nat → Bool) (hp : 1 ≤ p)
    (hc : cond 1 1 = true) : findXZ p cond 1 = some (1, 1) := by
  unfold findXZ
  obtain ⟨n, rfl⟩ : ∃ n, p = n + 1 := ⟨p - 1, by omega⟩
  have hfuel : n + 1 + 1 - 1 = n + 1 := by omega
  rw [hfuel]
  unfold findXZAux
  rw [findZ_first (n + 1) (cond 1) (by omega) hc]

theorem findXZ_zero_pred (p : Nat) (cfg : CFG) (bb y : Nat) (hashes : List Nat)
    (hp : 1 ≤ p) (hpreds : cfg.preds bb = []) :
    findXZ p (fun x z => okParams cfg bb y hashes x z) 1 = some (1, 1) :=
  findXZ_first p _ hp (okParams_zero_pred cfg bb y hashes hpreds 1 1)

/-- Through the block loop, a zero-predecessor block is solved with
`(1, 1)` the moment it is processed, and nothing later disturbs it. -/
theorem fold_zero_pred_solved (p y : Nat) (cfg : CFG) (hp : 1 ≤ p) (bb : Nat)
    (hpreds : cfg.preds bb = []) :
    ∀ (rest : List Nat) (st : St), rest.Nodup →
      ((bb ∈ rest ∧ bb ∉ st.unSolv) ∨
        (bb ∈ st.solv ∧ bb ∉ st.unSolv ∧ lookupKey st.params bb = some (1, 1) ∧
          bb ∉ rest)) →
      bb ∈ (rest.foldl (solveBlock p y cfg) st).solv ∧
      bb ∉ (rest.foldl (solveBlock p y cfg) st).unSolv ∧
      lookupKey (rest.foldl (solveBlock p y cfg) st).params bb = some (1, 1) := by
  intro rest
  induction rest with
  | nil =>
      intro st _ hcase
      rcases hcase with ⟨hin, _⟩ | ⟨h1, h2, h3, _⟩
      · exact absurd hin (List.not_mem_nil bb)
      · exact ⟨h1, h2, h3⟩
  | cons b' rest ih =>
      intro st hnd hcase
      have hndr : rest.Nodup := (List.nodup_cons.mp hnd).2
      simp only [List.foldl_cons]
      rcases hcase with ⟨hin, hun⟩ | ⟨h1, h2, h3, h4⟩
      · rcases List.mem_cons.mp hin with rfl | hinrest
        · -- bb is processed now and solved with (1, 1)
          have hsolve := solveBlock_solved_eq
            (findXZ_zero_pred p cfg bb y st.hashes hp hpreds)
          rw [hsolve]
          apply ih _ hndr
          right
          refine ⟨List.mem_append.mpr (Or.inr (by simp)), hun, ?_, ?_⟩
          · exact lookupKey_mapInsert_self st.params bb (1, 1)
          · exact (List.nodup_cons.mp hnd).1
        · -- another block is processed; bb stays pending
          have hbne : bb ≠ b' := by
            intro hh
            subst hh
            exact (List.nodup_cons.mp hnd).1 hinrest
          apply ih _ hndr
          left
          refine ⟨hinrest, ?_⟩
          cases hfind : findXZ p (fun x z => okParams cfg b' y st.hashes x z) 1 with
          | none =>
              rw [solveBlock_unsolved_eq hfind]
              intro hmem
              rcases List.mem_append.mp hmem with h | h
              · exact hun h
              · simp only [List.mem_singleton] at h
                exact hbne h
          | some xz =>
              obtain ⟨x, z⟩ := xz
              rw [solveBlock_solved_eq hfind]
              exact hun
      · -- bb already solved; the step preserves everything
        have hbne : bb ≠ b' := by
          intro hh
          subst hh
          exact h4 (List.mem_cons_self _ _)
        apply ih _ hndr
        right
        have hnotrest : bb ∉ rest := fun hh => h4 (List.mem_cons_of_mem _ hh)
        cases hfind : findXZ p (fun x z => okParams cfg b' y st.hashes x z) 1 with
        | none =>
            rw [solveBlock_unsolved_eq hfind]
            refine ⟨h1, ?_, h3, hnotrest⟩
            intro hmem
            rcases List.mem_append.mp hmem with h | h
            · exact h2 h
            · simp only [List.mem_singleton] at h
              exact hbne h
        | some xz =>
            obtain ⟨x, z⟩ := xz
            rw [solveBlock_solved_eq hfind]
            refine ⟨List.mem_append.mpr (Or.inl h1), h2, ?_, hnotrest⟩
            show lookupKey (mapInsert st.params b' (x, z)) bb = some (1, 1)
            rw [lookupKey_mapInsert_ne st.params (x, z) (fun hh => hbne hh.symm)]
            exact h3

theorem trial_zero_pred (p y : Nat) (cfg : CFG) (multi : List Nat) (st : St)
    (hp : 1 ≤ p) (hnd : multi.Nodup) {bb : Nat} (hbb : bb ∈ multi)
    (hpreds : cfg.preds bb = []) :
    bb ∈ (trial p y cfg multi st).solv ∧
    bb ∉ (trial p y cfg multi st).unSolv ∧
    lookupKey (trial p y cfg multi st).params bb = some (1, 1) := by
  unfold trial
  apply fold_zero_pred_solved p y cfg hp bb hpreds multi _ hnd
  left
  exact ⟨hbb, List.not_mem_nil bb⟩

theorem searchSt_zero_pred (p : Nat) (cfg : CFG) (hp : 1 ≤ p) {bb : Nat}
    (hbb : bb ∈ multiBBs cfg) (hpreds : cfg.preds bb = []) :
    bb ∈ (searchSt p cfg).solv ∧
    bb ∉ (searchSt p cfg).unSolv ∧
    lookupKey (searchSt p cfg).params bb = some (1, 1) := by
  have hshape := CalcFmul_trial_shape p cfg hp
  have htr := trial_zero_pred p (pipelineY p cfg) cfg (multiBBs cfg) initSt hp
    (multiBBs_nodup cfg) hbb hpreds
  rcases hshape with h | h <;>
    · show bb ∈ (CalcFmul p cfg (multiBBs cfg) initSt).solv ∧
        bb ∉ (CalcFmul p cfg (multiBBs cfg) initSt).unSolv ∧
        lookupKey (CalcFmul p cfg (multiBBs cfg) initSt).params bb = some (1, 1)
      rw [h]
      exact htr

theorem fsingleBlock_lookup_ne (st : St) (b' b : Nat) (hne : b ≠ b') :
    lookupKey (fsingleBlock st b').singleHash b = lookupKey st.singleHash b := by
  unfold fsingleBlock RandomPopFreeHashes
  cases st.freeHashes with
  | nil =>
      show lookupKey (mapInsert st.singleHash b' 0) b = _
      exact lookupKey_mapInsert_ne st.singleHash 0 (fun hh => hne hh.symm)
  | cons h rest =>
      show lookupKey (mapInsert st.singleHash b' h) b = _
      exact lookupKey_mapInsert_ne st.singleHash h (fun hh => hne hh.symm)

theorem foldl_fsingle_lookup_ne (bs : List Nat) :
    ∀ (st : St) (b : Nat), b ∉ bs →
      lookupKey ((bs.foldl fsingleBlock st)).singleHash b =
        lookupKey st.singleHash b := by
  induction bs with
  | nil => intro st b _; rfl
  | cons b' rest ih =>
      intro st b hb
      have hne : b ≠ b' := fun hh => hb (hh ▸ List.mem_cons_self _ _)
      have hnin : b ∉ rest := fun hh => hb (List.mem_cons_of_mem _ hh)
      simp only [List.foldl_cons]
      rw [ih _ b hnin, fsingleBlock_lookup_ne st b' b hne]

/-- The fallback phase never changes `Params`, `Solv`, `UnSolv`, and
only writes `SingleHash` entries for the single blocks — with no
assumption on the pool size. -/
theorem pipeline_untouched (p : Nat) (cfg : CFG) :
    (pipeline p cfg).params = (searchSt p cfg).params ∧
    (pipeline p cfg).solv = (searchSt p cfg).solv ∧
    (pipeline p cfg).unSolv = (searchSt p cfg).unSolv ∧
    (∀ b, b ∉ singleBBs cfg →
      lookupKey (pipeline p cfg).singleHash b =
        lookupKey (searchSt p cfg).singleHash b) := by
  have hfh : CalcFhash p cfg (searchSt p cfg) =
      (uEdgeKeys cfg (searchSt p cfg).unSolv).foldl writeK
        { searchSt p cfg with
          freeHashes := mkFreeHashes (2 ^ p) (searchSt p cfg).hashes } := by
    show ({ searchSt p cfg with
        freeHashes := mkFreeHashes (2 ^ p) (searchSt p cfg).hashes } : St).unSolv.foldl
          (fhashBlock cfg)
        { searchSt p cfg with
          freeHashes := mkFreeHashes (2 ^ p) (searchSt p cfg).hashes } = _
    rw [foldl_fhashBlock_eq]
  have hpipe : pipeline p cfg =
      (singleBBs cfg).foldl fsingleBlock (CalcFhash p cfg (searchSt p cfg)) := rfl
  obtain ⟨hK1, hK2, hK3, hK4, _⟩ :=
    foldl_writeK_untouched (uEdgeKeys cfg (searchSt p cfg).unSolv)
      { searchSt p cfg with
        freeHashes := mkFreeHashes (2 ^ p) (searchSt p cfg).hashes }
  obtain ⟨hS1, hS2, hS3, _, _⟩ :=
    foldl_fsingle_untouched (singleBBs cfg) (CalcFhash p cfg (searchSt p cfg))
  refine ⟨?_, ?_, ?_, ?_⟩
  · rw [hpipe, hS1, hfh, hK1]
  · rw [hpipe, hS2, hfh, hK2]
  · rw [hpipe, hS3, hfh, hK3]
  · intro b hb
    rw [hpipe, foldl_fsingle_lookup_ne (singleBBs cfg) _ b hb, hfh]
    show lookupKey ((uEdgeKeys cfg (searchSt p cfg).unSolv).foldl writeK _).singleHash b = _
    rw [hK4]

/-- C3 (amended): a zero-predecessor (entry) block is classified multi
and does enter the parametric parameter search, where it is always
solved immediately with the first candidate `(x, z) = (1, 1)`,
committing no hashes; it never lands in `UnSolv`, consumes no fallback
slot, and emission instruments it with the parametric strategy. -/
theorem c3_amended_zero_pred (p : Nat) (cfg : CFG) (bb : Nat) (hp : 1 ≤ p)
    (hbb : bb < cfg.numBlocks) (hpreds : cfg.preds bb = []) :
    bb ∈ multiBBs cfg ∧
    bb ∈ (pipeline p cfg).solv ∧
    bb ∉ (pipeline p cfg).unSolv ∧
    lookupKey (pipeline p cfg).params bb = some (1, 1) ∧
    strategyOf (pipeline p cfg) bb = Strategy.param 1 1 (pipeline p cfg).globalY := by
  have hlen0 : (cfg.preds bb).length ≠ 1 := by
    rw [hpreds]
    simp
  have hmulti : bb ∈ multiBBs cfg := mem_multiBBs.mpr ⟨hbb, hlen0⟩
  have hzero := searchSt_zero_pred p cfg hp hmulti hpreds
  obtain ⟨hU1, hU2, hU3, hU4⟩ := pipeline_untouched p cfg
  have hnotsgl : bb ∉ singleBBs cfg := fun hmem => hlen0 (mem_singleBBs.mp hmem).2
  have hsglnone : lookupKey (pipeline p cfg).singleHash bb = none := by
    rw [hU4 bb hnotsgl]
    have hempty : (searchSt p cfg).singleHash = [] := (CalcFmul_tables p cfg hp).2.1
    rw [hempty]
    rfl
  have hparams : lookupKey (pipeline p cfg).params bb = some (1, 1) := by
    rw [hU1]
    exact hzero.2.2
  refine ⟨hmulti, ?_, ?_, hparams, ?_⟩
  · rw [hU2]
    exact hzero.1
  · rw [hU3]
    exact hzero.2.1
  · unfold strategyOf
    rw [hsglnone, hparams]

/-- C3 witness: the amended statement instantiated on the
single-entry-block graph at `MAP_SIZE = 4`. -/
theorem c3_amended_witness :
    0 ∈ multiBBs cfgEntry ∧
    0 ∈ (pipeline 2 cfgEntry).solv ∧
    0 ∉ (pipeline 2 cfgEntry).unSolv ∧
    lookupKey (pipeline 2 cfgEntry).params 0 = some (1, 1) ∧
    strategyOf (pipeline 2 cfgEntry) 0 =
      Strategy.param 1 1 (pipeline 2 cfgEntry).globalY :=
  c3_amended_zero_pred 2 cfgEntry 0 (by decide) (by decide) rfl

/-- C1 witness: the amended uniqueness statement instantiated on the
spec §8 diamond graph at `MAP_SIZE = 8`, for the two edges entering
the join block C. -/
theorem c1_amended_witness :
    ∃ s1 s2, committedSlot 3 cfgDiamond 3 0 = some s1 ∧
      committedSlot 3 cfgDiamond 3 1 = some s2 ∧ s1 ≠ s2 := by
  apply c1_amended_global_uniqueness 3 cfgDiamond (by decide) (by decide)
    ?_ 3 3 0 1 (by decide) (by decide) (by decide) (by decide) (by decide)
  intro b1 b2 i1 i2 h1
  have hempty : (pipeline 3 cfgDiamond).unSolv = [] := by decide
  rw [hempty] at h1
  exact absurd h1 (List.not_mem_nil b1)
